import Mathlib

/-!
Verification of the document-synchronization core of `mobile_ui_editor.py`
(a PyQt JSON editor): the JSON document model, the dotted field-path
resolver (`PropertyEditor.update_field`), the canvas position write-back
(`DraggableWidget.itemChange`), the canvas layout defaults
(`CanvasView.add_widget`, `MobileUIEditor.load_canvas`), the list-field
editor (`PropertyEditor.update_list`), the tree-view selection references
(`MobileUIEditor.add_tree_items`), the JSON serializer / parser pair used
by save, load and the raw view (`json.dumps(indent=2, ensure_ascii=False)`
/ `json.loads`), and the save / load entry points.

Python dicts are modelled as association lists in insertion order:
assigning an existing key keeps its position and replaces its value,
assigning a fresh key appends it at the end (CPython dict semantics).
Python numbers in JSON documents are modelled as integers; float
formatting is floating-point behaviour and stays outside the model.
Exceptions (`KeyError` / `TypeError` during path walks, `JSONDecodeError`)
are modelled with `Except`.
-/

namespace MobileUiEditor

/-- A JSON value as produced by `json.loads`: null, bool, number, string,
array, or object with string keys in insertion order. -/
inductive Json where
  | null : Json
  | bool : Bool → Json
  | num : Int → Json
  | str : String → Json
  | arr : List Json → Json
  | obj : List (String × Json) → Json
deriving Repr

/-- Python dict lookup `d[k]` / `d.get(k)` on an insertion-ordered dict. -/
def lookup : List (String × Json) → String → Option Json
  | [], _ => none
  | (k, v) :: rest, key => if k = key then some v else lookup rest key

/-- Python dict assignment `d[k] = v`: replace the value in place if the
key exists (keeping its position), otherwise append the new key. -/
def pyInsert : List (String × Json) → String → Json → List (String × Json)
  | [], k, v => [(k, v)]
  | (k', v') :: rest, k, v =>
    if k' = k then (k', v) :: rest else (k', v') :: pyInsert rest k v

/-- Helper for `splitDot`: accumulates the current segment (reversed). -/
def splitDotAux : List Char → List Char → List String
  | acc, [] => [String.mk acc.reverse]
  | acc, c :: rest =>
    if c = '.' then String.mk acc.reverse :: splitDotAux [] rest
    else splitDotAux (c :: acc) rest

/-- Python `field_path.split('.')`: split on every dot; the empty string
splits to `[""]`. -/
def splitDot (s : String) : List String := splitDotAux [] s.data

/-- The spec's `PathError`: a field-path walk hit a missing key
(`KeyError`) or a non-object intermediate (`TypeError`). -/
inductive PathError where
  | pathError
deriving Repr, DecidableEq

/-- The path walk and final assignment of `PropertyEditor.update_field`
(lines 220-228): walk all but the last segment as key lookups into nested
objects, then assign at the last segment.  A missing intermediate key or a
non-object on the walk (or at the assignment) is a `PathError`. -/
def setKeys : Json → List String → Json → Except PathError Json
  | Json.obj kvs, [k], v => Except.ok (Json.obj (pyInsert kvs k v))
  | Json.obj kvs, k :: k2 :: rest, v =>
    (match lookup kvs k with
     | some sub => (setKeys sub (k2 :: rest) v).map (fun sub2 => Json.obj (pyInsert kvs k sub2))
     | none => Except.error PathError.pathError)
  | _, _, _ => Except.error PathError.pathError

/-- The Field-Path Resolver: `update_field`'s dotted-path mutation,
`data[k1][k2]...[kn] = value`. -/
def update_field_set (data : Json) (field_path : String) (value : Json) :
    Except PathError Json :=
  setKeys data (splitDot field_path) value

/-- `PropertyEditor.update_field` in full: the `if not self.current_data:
return` guard drops the edit silently when the loaded data is empty (a
state the form never edits from, since an empty object generates no
editor widgets), otherwise the path mutation runs. -/
def update_field (current_data : Json) (field_path : String) (value : Json) :
    Except PathError Json :=
  match current_data with
  | Json.obj [] => Except.ok (Json.obj [])
  | data => update_field_set data field_path value

/-- Reading a chain of keys out of nested objects. -/
def getKeys : Json → List String → Option Json
  | v, [] => some v
  | Json.obj kvs, k :: rest =>
    (match lookup kvs k with
     | some sub => getKeys sub rest
     | none => none)
  | _, _ => none

/-- Reading a dotted path, e.g. `element.props.position.x`. -/
def getPath (doc : Json) (path : String) : Option Json :=
  getKeys doc (splitDot path)

/-- True when the element (an object) has no `props` key, or has an
object `props` without a `position` key. -/
def unpositioned (e : Json) : Bool :=
  match e with
  | Json.obj kvs =>
    (match lookup kvs "props" with
     | none => true
     | some (Json.obj pkvs) => (lookup pkvs "position").isNone
     | some _ => false)
  | _ => false

/-- `DraggableWidget.itemChange` position write-back (lines 56-64): if
`position` is missing from `widget_data.get('props', {})`, create
`props` (when absent) and `props.position` as empty dicts, then assign
both `x` and `y`.  A non-dict `props` or `position` raises (`TypeError`),
modelled as `PathError`. -/
def itemChange (widget_data : Json) (newX newY : Json) : Except PathError Json :=
  match widget_data with
  | Json.obj kvs =>
    (match lookup kvs "props" with
     | none =>
       Except.ok (Json.obj (pyInsert kvs "props"
         (Json.obj [("position", Json.obj [("x", newX), ("y", newY)])])))
     | some (Json.obj pkvs) =>
       (match lookup pkvs "position" with
        | none =>
          Except.ok (Json.obj (pyInsert kvs "props"
            (Json.obj (pyInsert pkvs "position" (Json.obj [("x", newX), ("y", newY)])))))
        | some (Json.obj poskvs) =>
          Except.ok (Json.obj (pyInsert kvs "props"
            (Json.obj (pyInsert pkvs "position"
              (Json.obj (pyInsert (pyInsert poskvs "x" newX) "y" newY))))))
        | some _ => Except.error PathError.pathError)
     | some _ => Except.error PathError.pathError)
  | _ => Except.error PathError.pathError

/-! ### The numeric property editor (`PropertyEditor.add_editors`, lines 199-207) -/

/-- A Python number as stored in a JSON document: `int` or `float`.
Floats are modelled as rationals; what matters for the editor is the
exact truncation behaviour of `int()`, not binary rounding. -/
inductive PyNumber where
  | int : Int → PyNumber
  | float : ℚ → PyNumber

/-- Python `int(value)`: truncation toward zero. -/
def intOf : PyNumber → Int
  | PyNumber.int i => i
  | PyNumber.float q => if 0 ≤ q then ⌊q⌋ else ⌈q⌉

/-- The two numeric widget kinds Qt offers; the code only ever builds the
integer one. -/
inductive SpinKind where
  | intSpin
  | doubleSpin
deriving Repr, DecidableEq

/-- Widget chosen for a numeric value (line 201):
`QSpinBox() if isinstance(value, int) else QSpinBox()` — the integer
spin box in both branches of the conditional. -/
def spin_widget_for : PyNumber → SpinKind
  | PyNumber.int _ => SpinKind.intSpin
  | PyNumber.float _ => SpinKind.intSpin

/-- `setMinimum(-999999)` / `setMaximum(999999)` (lines 202-203): Qt
clamps `setValue` and typed input into the configured range. -/
def spinClamp (x : Int) : Int := max (-999999) (min 999999 x)

/-- The value shown by the spin box (line 204):
`int(value) if isinstance(value, int) else int(value)` — truncation in
both branches — clamped into the widget range. -/
def spin_initial (v : PyNumber) : Int := spinClamp (intOf v)

/-! ### The canvas layout (`CanvasView.add_widget`, `MobileUIEditor.load_canvas`) -/

/-- One positioned shape on the canvas. -/
structure CanvasWidget where
  widget_data : Json
  x : Json
  y : Json
  width : Json
  height : Json

/-- Python `j.get(k, dflt)`; `none` models the `AttributeError` of
calling `.get` on a non-dict. -/
def pyGetD (j : Json) (k : String) (dflt : Json) : Option Json :=
  match j with
  | Json.obj kvs => some ((lookup kvs k).getD dflt)
  | _ => none

/-- `CanvasView.add_widget` (lines 88-100): position and size come from
`widget_data.get('props', {}).get('position', {})` with defaults
`x = y = 50 + 20 * len(self.widgets_items)`, `width = 150`,
`height = 100`; the new shape is appended to `widgets_items`. -/
def add_widget (widgets_items : List CanvasWidget) (widget_data : Json) :
    Option (List CanvasWidget) :=
  match pyGetD widget_data "props" (Json.obj []) with
  | none => none
  | some props =>
    match pyGetD props "position" (Json.obj []) with
    | none => none
    | some position =>
      match pyGetD position "x" (Json.num (50 + 20 * (widgets_items.length : Int))),
            pyGetD position "y" (Json.num (50 + 20 * (widgets_items.length : Int))),
            pyGetD position "width" (Json.num 150),
            pyGetD position "height" (Json.num 100) with
      | some x, some y, some w, some h =>
        some (widgets_items ++ [⟨widget_data, x, y, w, h⟩])
      | _, _, _, _ => none

/-- `self.json_data.get(key, [])` followed by per-element iteration; a
present non-array value would not iterate as a list of elements, so it
falls outside the model. -/
def getElems (doc : Json) (key : String) : Option (List Json) :=
  match doc with
  | Json.obj kvs =>
    (match lookup kvs key with
     | none => some []
     | some (Json.arr xs) => some xs
     | some _ => none)
  | _ => none

/-- Add a list of elements to the canvas, left to right. -/
def addAll (ws : Option (List CanvasWidget)) (es : List Json) :
    Option (List CanvasWidget) :=
  es.foldl (fun acc e => acc.bind (fun ws2 => add_widget ws2 e)) ws

/-- `MobileUIEditor.load_canvas` (lines 480-495): clear the canvas, then
add every `moduleElements` entry, then every `enhancedData` entry. -/
def load_canvas (doc : Json) : Option (List CanvasWidget) :=
  match getElems doc "moduleElements", getElems doc "enhancedData" with
  | some ms, some es => addAll (some []) (ms ++ es)
  | _, _ => none

/-- The stacking default: the i-th shape at `(50 + 20*i, 50 + 20*i)`,
sized 150×100. -/
def defaultWidgets : Nat → List Json → List CanvasWidget
  | _, [] => []
  | i, e :: es =>
    ⟨e, Json.num (50 + 20 * (i : Int)), Json.num (50 + 20 * (i : Int)),
      Json.num 150, Json.num 100⟩ :: defaultWidgets (i + 1) es

/-! ### Tree-view selection references (`MobileUIEditor.add_tree_items`) -/

/-- What a tree node's `Qt.UserRole` slot holds, as a reference: either an
alias of a document subtree (the node for a dict value stores that very
dict), or a freshly constructed object that does not alias the document
(the `{key: value}` wrapper of line 466). -/
inductive Selection where
  | docRef : List String → Selection
  | detached : Json → Selection

/-- Line 456's guard: the value is a list whose first entry is a dict. -/
def isDictHeadedList : Json → Bool
  | Json.arr (Json.obj _ :: _) => true
  | _ => false

def isObjVal : Json → Bool
  | Json.obj _ => true
  | _ => false

/-- `MobileUIEditor.add_tree_items` reference attachment for the node of
key `k` (value `v`) inside the subtree at `path`: a dict value aliases
the document subtree (`item.setData(0, Qt.UserRole, value)`); a
dict-headed list node itself carries no reference (its children do); any
other value gets the freshly built single-key wrapper
`item.setData(0, Qt.UserRole, {key: value})` of line 466. -/
def tree_item_ref (path : List String) (k : String) (v : Json) : Option Selection :=
  match v with
  | Json.obj _ => some (Selection.docRef (path ++ [k]))
  | v =>
    if isDictHeadedList v then none
    else some (Selection.detached (Json.obj [(k, v)]))

/-- A property-form edit routed through `update_field` while `sel` is
loaded in the property editor (`tree_item_clicked` then a field change):
an aliased subtree selection mutates the document along the base path; a
detached wrapper selection mutates the wrapper alone. -/
def applyFormEdit (doc : Json) (sel : Selection) (field_path : String) (value : Json) :
    Json × Selection :=
  match sel with
  | Selection.detached w =>
    (match update_field w field_path value with
     | Except.ok w2 => (doc, Selection.detached w2)
     | Except.error _ => (doc, Selection.detached w))
  | Selection.docRef basePath =>
    (match setKeys doc (basePath ++ splitDot field_path) value with
     | Except.ok doc2 => (doc2, Selection.docRef basePath)
     | Except.error _ => (doc, Selection.docRef basePath))

/-! ### The serializer: `json.dumps(v, indent=2, ensure_ascii=False)` -/

/-- Lowercase hexadecimal digit, as written inside `\u00XX` escapes. -/
def hexDigitChar (n : Nat) : Char :=
  if n < 10 then Char.ofNat (48 + n) else Char.ofNat (87 + n)

/-- The `json.dumps` string escape table with `ensure_ascii=False`:
escape the quote, the backslash and the control characters (shorthand
escapes for backspace, tab, newline, form feed, carriage return, and
`\u00XX` for the rest); all other characters are written literally. -/
def escapeChar (c : Char) : List Char :=
  if c = '"' then ['\\', '"']
  else if c = '\\' then ['\\', '\\']
  else if c = '\n' then ['\\', 'n']
  else if c = '\t' then ['\\', 't']
  else if c = '\r' then ['\\', 'r']
  else if c = '\x08' then ['\\', 'b']
  else if c = '\x0c' then ['\\', 'f']
  else if c.toNat < 32 then
    ['\\', 'u', '0', '0', hexDigitChar (c.toNat / 16), hexDigitChar (c.toNat % 16)]
  else [c]

/-- Escape every character of a string body. -/
def escChars (l : List Char) : List Char := (l.map escapeChar).flatten

/-- A serialized JSON string: quote, escaped body, quote. -/
def serStr (s : String) : List Char := '"' :: (escChars s.data ++ ['"'])

/-- Decimal digits of `n`, most significant first (fuel-driven so that it
computes by kernel reduction; any `fuel ≥ n` gives the true digits). -/
def natCharsAux : Nat → Nat → List Char → List Char
  | 0, _, acc => acc
  | fuel + 1, n, acc =>
    if n = 0 then acc
    else natCharsAux fuel (n / 10) (Char.ofNat (48 + n % 10) :: acc)

/-- Python `str(n)` for a natural number. -/
def natChars (n : Nat) : List Char :=
  if n = 0 then ['0'] else natCharsAux n n []

/-- Python `str(i)` for an integer. -/
def intChars : Int → List Char
  | Int.ofNat n => natChars n
  | Int.negSucc m => '-' :: natChars (m + 1)

/-- Newline plus the 2-space indentation of the given nesting level. -/
def nlIndent (lvl : Nat) : List Char :=
  '\n' :: List.replicate (2 * lvl) ' '

mutual
/-- `json.dumps(v, indent=2, ensure_ascii=False)` emitted at nesting
level `lvl`: scalars inline; a non-empty container puts every item on
its own line one level deeper, with separators `(',', ': ')`; empty
containers collapse. -/
def serVal : Nat → Json → List Char
  | _, Json.null => ['n', 'u', 'l', 'l']
  | _, Json.bool true => ['t', 'r', 'u', 'e']
  | _, Json.bool false => ['f', 'a', 'l', 's', 'e']
  | _, Json.num i => intChars i
  | _, Json.str s => serStr s
  | _, Json.arr [] => ['[', ']']
  | lvl, Json.arr (x :: xs) =>
    '[' :: (nlIndent (lvl + 1) ++ serVal (lvl + 1) x ++ serArrRest (lvl + 1) xs ++
      nlIndent lvl ++ [']'])
  | _, Json.obj [] => ['\x7b', '\x7d']
  | lvl, Json.obj ((k, v) :: kvs) =>
    '\x7b' :: (nlIndent (lvl + 1) ++ serStr k ++ ':' :: ' ' :: serVal (lvl + 1) v ++
      serObjRest (lvl + 1) kvs ++ nlIndent lvl ++ ['\x7d'])

/-- Second and later array items: `,` newline indent item. -/
def serArrRest : Nat → List Json → List Char
  | _, [] => []
  | lvl, x :: xs => ',' :: (nlIndent lvl ++ serVal lvl x ++ serArrRest lvl xs)

/-- Second and later object members. -/
def serObjRest : Nat → List (String × Json) → List Char
  | _, [] => []
  | lvl, (k, v) :: kvs =>
    ',' :: (nlIndent lvl ++ serStr k ++ ':' :: ' ' :: serVal lvl v ++ serObjRest lvl kvs)
end

/-- `json.dumps(v, indent=2, ensure_ascii=False)` as used by
`update_raw_editor` and `save_file`. -/
def json_dumps (v : Json) : String := String.mk (serVal 0 v)

/-! ### The parser: `json.loads` -/

/-- The spec's `ParseError`: `json.JSONDecodeError`. -/
inductive ParseError where
  | parseError
deriving Repr, DecidableEq

/-- JSON whitespace. -/
def isWs (c : Char) : Bool :=
  c == ' ' || c == '\t' || c == '\n' || c == '\r'

/-- ASCII decimal digit. -/
def isDigitChar (c : Char) : Bool := 48 ≤ c.toNat && c.toNat ≤ 57

def skipWs : List Char → List Char
  | [] => []
  | c :: rest => if isWs c then skipWs rest else c :: rest

/-- One-character escape shorthands accepted after a backslash. -/
def unescapeChar (c : Char) : Option Char :=
  if c = '"' then some '"'
  else if c = '\\' then some '\\'
  else if c = '/' then some '/'
  else if c = 'b' then some '\x08'
  else if c = 'f' then some '\x0c'
  else if c = 'n' then some '\n'
  else if c = 'r' then some '\r'
  else if c = 't' then some '\t'
  else none

def hexVal (c : Char) : Option Nat :=
  if 48 ≤ c.toNat ∧ c.toNat ≤ 57 then some (c.toNat - 48)
  else if 97 ≤ c.toNat ∧ c.toNat ≤ 102 then some (c.toNat - 87)
  else if 65 ≤ c.toNat ∧ c.toNat ≤ 70 then some (c.toNat - 55)
  else none

def hex4 (a b c d : Char) : Option Nat :=
  match hexVal a, hexVal b, hexVal c, hexVal d with
  | some x, some y, some z, some w => some (((x * 16 + y) * 16 + z) * 16 + w)
  | _, _, _, _ => none

/-- Decode one escape sequence (the part after the backslash): the
decoded character and the remaining input.  Surrogate pairs are
combined; a lone surrogate does not fit in `Char` and is rejected (a
deliberate restriction of the model). -/
def decodeEsc : List Char → Option (Char × List Char)
  | [] => none
  | e :: rest =>
    if e = 'u' then
      (match rest with
       | h1 :: h2 :: h3 :: h4 :: rest2 =>
         (match hex4 h1 h2 h3 h4 with
          | none => none
          | some n =>
            if n < 55296 ∨ 57344 ≤ n then some (Char.ofNat n, rest2)
            else if n < 56320 then
              (match rest2 with
               | b1 :: b2 :: g1 :: g2 :: g3 :: g4 :: rest3 =>
                 if b1 = '\\' ∧ b2 = 'u' then
                   (match hex4 g1 g2 g3 g4 with
                    | some m =>
                      if 56320 ≤ m ∧ m < 57344 then
                        some (Char.ofNat (65536 + (n - 55296) * 1024 + (m - 56320)), rest3)
                      else none
                    | none => none)
                 else none
               | _ => none)
            else none)
       | _ => none)
    else
      (match unescapeChar e with
       | some c2 => some (c2, rest)
       | none => none)

/-- `json.loads` string scanning after the opening quote (strict mode):
raw control characters are rejected, escapes are decoded.  Fuel-driven;
every step consumes at least one input character, so fuel exceeding the
input length never runs out. -/
def parseStringBody : Nat → List Char → List Char → Option (String × List Char)
  | 0, _, _ => none
  | fuel + 1, acc, input =>
    match input with
    | [] => none
    | c :: rest =>
      if c = '"' then some (String.mk acc.reverse, rest)
      else if c = '\\' then
        (match decodeEsc rest with
         | some (c2, rest2) => parseStringBody fuel (c2 :: acc) rest2
         | none => none)
      else if c.toNat < 32 then none
      else parseStringBody fuel (c :: acc) rest

/-- Numeric value of a digit span. -/
def digitsVal (ds : List Char) : Nat :=
  ds.foldl (fun acc c => 10 * acc + (c.toNat - 48)) 0

/-- `json.loads` number scanning, restricted to the integer grammar: an
optional sign handled by the caller, then `0` or a nonzero digit
followed by digits; a fractional part or an exponent would make a float,
which is outside the integer-numbered model. -/
def parseNatNum : List Char → Option (Nat × List Char)
  | [] => none
  | c :: rest =>
    if c = '0' then
      (match rest with
       | [] => some (0, [])
       | c2 :: _ =>
         if isDigitChar c2 ∨ c2 = '.' ∨ c2 = 'e' ∨ c2 = 'E' then none
         else some (0, rest))
    else if isDigitChar c then
      (match rest.dropWhile isDigitChar with
       | [] => some (digitsVal (c :: rest.takeWhile isDigitChar), [])
       | c2 :: tl =>
         if c2 = '.' ∨ c2 = 'e' ∨ c2 = 'E' then none
         else some (digitsVal (c :: rest.takeWhile isDigitChar), c2 :: tl))
    else none

def parseNumber : List Char → Option (Json × List Char)
  | [] => none
  | c :: rest =>
    if c = '-' then
      (match parseNatNum rest with
       | some (n, rest2) => some (Json.num (-(n : Int)), rest2)
       | none => none)
    else
      (match parseNatNum (c :: rest) with
       | some (n, rest2) => some (Json.num ((n : Int)), rest2)
       | none => none)

mutual
/-- `json.loads` value scanner, fuel-driven (any fuel at least the node
count of the value suffices); leading whitespace is skipped. -/
def parseVal : Nat → List Char → Option (Json × List Char)
  | 0, _ => none
  | fuel + 1, input =>
    match skipWs input with
    | [] => none
    | c :: rest =>
      if c = '"' then
        (match parseStringBody (rest.length + 1) [] rest with
         | some (s, rest2) => some (Json.str s, rest2)
         | none => none)
      else if c = '\x7b' then
        (match skipWs rest with
         | [] => none
         | c2 :: rest2 =>
           if c2 = '\x7d' then some (Json.obj [], rest2)
           else parseMembers fuel (c2 :: rest2) [])
      else if c = '[' then
        (match skipWs rest with
         | [] => none
         | c2 :: rest2 =>
           if c2 = ']' then some (Json.arr [], rest2)
           else parseElems fuel (c2 :: rest2) [])
      else if c = 't' then
        (match rest with
         | 'r' :: 'u' :: 'e' :: rest2 => some (Json.bool true, rest2)
         | _ => none)
      else if c = 'f' then
        (match rest with
         | 'a' :: 'l' :: 's' :: 'e' :: rest2 => some (Json.bool false, rest2)
         | _ => none)
      else if c = 'n' then
        (match rest with
         | 'u' :: 'l' :: 'l' :: rest2 => some (Json.null, rest2)
         | _ => none)
      else if c = '-' ∨ isDigitChar c then parseNumber (c :: rest)
      else none

/-- Array items after a non-empty `[`: a value, then `,` and the next
item, or `]`. -/
def parseElems : Nat → List Char → List Json → Option (Json × List Char)
  | 0, _, _ => none
  | fuel + 1, input, acc =>
    match parseVal fuel input with
    | none => none
    | some (v, rest) =>
      match skipWs rest with
      | [] => none
      | c :: rest2 =>
        if c = ',' then parseElems fuel rest2 (v :: acc)
        else if c = ']' then some (Json.arr (v :: acc).reverse, rest2)
        else none

/-- Object members after a non-empty `{`: `"key"`, `:`, value, then `,`
and the next member, or `}`.  Members land in a dict with CPython
semantics: a duplicate key keeps its first position and takes the last
value (`pyInsert`). -/
def parseMembers : Nat → List Char → List (String × Json) → Option (Json × List Char)
  | 0, _, _ => none
  | fuel + 1, input, acc =>
    match skipWs input with
    | [] => none
    | c :: rest =>
      if c = '"' then
        (match parseStringBody (rest.length + 1) [] rest with
         | none => none
         | some (k, rest2) =>
           match skipWs rest2 with
           | [] => none
           | c2 :: rest3 =>
             if c2 = ':' then
               (match parseVal fuel rest3 with
                | none => none
                | some (v, rest4) =>
                  match skipWs rest4 with
                  | [] => none
                  | c3 :: rest5 =>
                    if c3 = ',' then parseMembers fuel rest5 (pyInsert acc k v)
                    else if c3 = '\x7d' then some (Json.obj (pyInsert acc k v), rest5)
                    else none)
             else none)
      else none
end

/-- `json.loads(s)`: skip leading whitespace, scan one value, then allow
only trailing whitespace. -/
def json_loads (s : String) : Except ParseError Json :=
  match parseVal (s.length + 1) s.data with
  | some (v, rest) =>
    (match skipWs rest with
     | [] => Except.ok v
     | _ => Except.error ParseError.parseError)
  | none => Except.error ParseError.parseError

/-! ### The remaining editor operations -/

/-- `PropertyEditor.update_list` (lines 231-237): parse the typed text as
JSON; on success route the parsed value through `update_field` (whose
`PathError` would propagate past the handler, mutating nothing), on
`JSONDecodeError` drop the edit silently, leaving the data intact. -/
def update_list (current_data : Json) (field_path : String) (text : String) : Json :=
  match json_loads text with
  | Except.error _ => current_data
  | Except.ok v =>
    (match update_field current_data field_path v with
     | Except.ok d2 => d2
     | Except.error _ => current_data)

/-- The pieces of `MobileUIEditor` state the load/save claims concern.
`disk` is the content of the file at `current_file` (`none` when absent);
`raw_tab_active` says whether the Raw JSON tab is the current widget. -/
structure EditorState where
  current_file : Option String
  json_data : Option Json
  modified : Bool
  raw_text : String
  raw_tab_active : Bool
  disk : Option String

/-- `json.dump` writes `null` for a `None` document. -/
def dumpOpt : Option Json → String
  | some v => json_dumps v
  | none => "null"

inductive SaveOutcome where
  | saved
  | failed
  | save_as_dialog
deriving Repr, DecidableEq

/-- `MobileUIEditor.save_file` (lines 534-557): without a current file,
delegate to the Save-As dialog.  Otherwise, only when the Raw JSON tab is
the current widget, re-parse the raw text (replacing `json_data`); a
`JSONDecodeError` is caught before the target file is opened, so the
disk is untouched.  On success the document is written with
`indent=2, ensure_ascii=False` and the modified flag cleared. -/
def save_file (st : EditorState) : EditorState × SaveOutcome :=
  match st.current_file with
  | none => (st, SaveOutcome.save_as_dialog)
  | some _ =>
    (match (if st.raw_tab_active then (json_loads st.raw_text).map some
            else Except.ok st.json_data) with
     | Except.error _ => (st, SaveOutcome.failed)
     | Except.ok jd =>
       (⟨st.current_file, jd, false, st.raw_text, st.raw_tab_active,
         some (dumpOpt jd)⟩, SaveOutcome.saved))

/-- `MobileUIEditor.load_file` (lines 415-433): `content` is the result
of reading the file (`none` for an I/O error).  A read or parse failure
is caught and reported, leaving every field of the state as it was; on
success the document is replaced wholesale, the modified flag cleared
and the views (including the raw editor) refreshed. -/
def load_file (st : EditorState) (file_path : String) (content : Option String) :
    EditorState × Bool :=
  match content with
  | none => (st, false)
  | some text =>
    (match json_loads text with
     | Except.error _ => (st, false)
     | Except.ok v =>
       (⟨some file_path, some v, false, json_dumps v, st.raw_tab_active, some text⟩,
        true))

/-! ### Round-trip infrastructure: whitespace and heads -/

/-- Every character of the list is JSON whitespace. -/
def allWsL (l : List Char) : Prop := ∀ c ∈ l, isWs c = true

/-- Non-empty with a non-whitespace head. -/
def startsSolid : List Char → Prop
  | [] => False
  | c :: _ => isWs c = false

/-- What may legally follow a serialized number so that the scanner stops
exactly at its end: not a digit, not a fraction or exponent mark. -/
def numBoundary : List Char → Prop
  | [] => True
  | c :: _ => isDigitChar c = false ∧ c ≠ '.' ∧ c ≠ 'e' ∧ c ≠ 'E'

/-! ### Round-trip infrastructure: well-formed documents, sizes, heads -/

/-- Well-formed JSON value: in every object the keys are pairwise
distinct — exactly the shape `json.loads` produces. -/
inductive WF : Json → Prop where
  | null : WF Json.null
  | bool (b : Bool) : WF (Json.bool b)
  | num (i : Int) : WF (Json.num i)
  | str (s : String) : WF (Json.str s)
  | arr (xs : List Json) : (∀ x ∈ xs, WF x) → WF (Json.arr xs)
  | obj (kvs : List (String × Json)) : (kvs.map Prod.fst).Nodup →
      (∀ p ∈ kvs, WF p.2) → WF (Json.obj kvs)

mutual
/-- Node count of a JSON value: a lower bound for the parser fuel. -/
def jsize : Json → Nat
  | Json.arr xs => 1 + jsizeL xs
  | Json.obj kvs => 1 + jsizeM kvs
  | _ => 1

def jsizeL : List Json → Nat
  | [] => 0
  | x :: xs => 1 + jsize x + jsizeL xs

def jsizeM : List (String × Json) → Nat
  | [] => 0
  | (_, v) :: kvs => 1 + jsize v + jsizeM kvs
end

/-! ### Round-trip infrastructure: the main induction -/

/-- Round-trip statement for one serialized value at a given fuel. -/
def RTV (fuel : Nat) : Prop :=
  ∀ (v : Json) (lvl : Nat) (ws rest : List Char),
    allWsL ws → numBoundary rest → WF v → jsize v ≤ fuel →
    parseVal fuel (ws ++ (serVal lvl v ++ rest)) = some (v, rest)

/-- Round-trip statement for a non-empty serialized item list. -/
def RTE (fuel : Nat) : Prop :=
  ∀ (x : Json) (xs : List Json) (lvl : Nat) (ws tl rest : List Char) (acc : List Json),
    allWsL ws → allWsL tl → (∀ e ∈ x :: xs, WF e) → jsizeL (x :: xs) ≤ fuel →
    parseElems fuel
      (ws ++ (serVal lvl x ++ (serArrRest lvl xs ++ (tl ++ (']' :: rest))))) acc
      = some (Json.arr (acc.reverse ++ (x :: xs)), rest)

/-- Round-trip statement for a non-empty serialized member list. -/
def RTM (fuel : Nat) : Prop :=
  ∀ (k : String) (v : Json) (kvs : List (String × Json)) (lvl : Nat)
    (ws tl rest : List Char) (acc : List (String × Json)),
    allWsL ws → allWsL tl → (∀ p ∈ (k, v) :: kvs, WF p.2) →
    ((acc ++ ((k, v) :: kvs)).map Prod.fst).Nodup → jsizeM ((k, v) :: kvs) ≤ fuel →
    parseMembers fuel
      (ws ++ (serStr k ++ (':' :: ' ' ::
        (serVal lvl v ++ (serObjRest lvl kvs ++ (tl ++ ('\x7d' :: rest))))))) acc
      = some (Json.obj (acc ++ ((k, v) :: kvs)), rest)

/-! ### Basic lemmas about the resolver -/

theorem lookup_pyInsert (kvs : List (String × Json)) (k : String) (v : Json) :
    lookup (pyInsert kvs k v) k = some v := by
  induction kvs with
  | nil => simp [pyInsert, lookup]
  | cons p rest ih =>
    obtain ⟨k', v'⟩ := p
    by_cases h : k' = k
    · simp [pyInsert, lookup, h]
    · simp [pyInsert, lookup, h, ih]

theorem lookup_pyInsert_ne (kvs : List (String × Json)) (k k2 : String) (v : Json)
    (h : k2 ≠ k) : lookup (pyInsert kvs k v) k2 = lookup kvs k2 := by
  induction kvs with
  | nil =>
    simp only [pyInsert, lookup]
    rw [if_neg (Ne.symm h)]
  | cons p rest ih =>
    obtain ⟨k', v'⟩ := p
    by_cases hk : k' = k
    · subst hk
      have hne : k' ≠ k2 := fun h2 => h (h2.symm)
      simp [pyInsert, lookup, hne]
    · by_cases hk2 : k' = k2
      · simp [pyInsert, lookup, hk, hk2, h]
      · simp [pyInsert, lookup, hk, hk2, ih]

theorem setKeys_ok_of_walk (keys : List String) :
    ∀ (data : Json) (o : List (String × Json)) (v : Json), keys ≠ [] →
    getKeys data keys.dropLast = some (Json.obj o) →
    ∃ d2, setKeys data keys v = Except.ok d2 ∧ getKeys d2 keys = some v := by
  induction keys with
  | nil => intro _ _ _ h; exact absurd rfl h
  | cons k rest ih =>
    intro data o v _ hwalk
    cases rest with
    | nil =>
      simp only [List.dropLast, getKeys] at hwalk
      obtain rfl : data = Json.obj o := by cases hwalk; rfl
      refine ⟨Json.obj (pyInsert o k v), rfl, ?_⟩
      simp [getKeys, lookup_pyInsert]
    | cons k2 rest2 =>
      have hdl : (k :: k2 :: rest2).dropLast = k :: (k2 :: rest2).dropLast := rfl
      rw [hdl] at hwalk
      cases data with
      | obj kvs =>
        simp only [getKeys] at hwalk
        cases hsub : lookup kvs k with
        | none => rw [hsub] at hwalk; exact absurd hwalk (by simp)
        | some sub =>
          rw [hsub] at hwalk
          obtain ⟨s2, hs2, hget⟩ := ih sub o v (by simp) hwalk
          refine ⟨Json.obj (pyInsert kvs k s2), ?_, ?_⟩
          · simp [setKeys, hsub, hs2, Except.map]
          · simp [getKeys, lookup_pyInsert, hget]
      | null => simp [getKeys] at hwalk
      | bool b => simp [getKeys] at hwalk
      | num n => simp [getKeys] at hwalk
      | str s => simp [getKeys] at hwalk
      | arr xs => simp [getKeys] at hwalk

theorem setKeys_error_of_no_walk (keys : List String) :
    ∀ (data : Json) (v : Json), keys ≠ [] →
    (∀ o, getKeys data keys.dropLast ≠ some (Json.obj o)) →
    setKeys data keys v = Except.error PathError.pathError := by
  induction keys with
  | nil => intro _ _ h; exact absurd rfl h
  | cons k rest ih =>
    intro data v _ hno
    cases rest with
    | nil =>
      cases data with
      | obj kvs => exact absurd rfl (hno kvs)
      | null => rfl
      | bool b => rfl
      | num n => rfl
      | str s => rfl
      | arr xs => rfl
    | cons k2 rest2 =>
      have hdl : (k :: k2 :: rest2).dropLast = k :: (k2 :: rest2).dropLast := rfl
      rw [hdl] at hno
      cases data with
      | obj kvs =>
        cases hsub : lookup kvs k with
        | none => simp [setKeys, hsub]
        | some sub =>
          have hno2 : ∀ o, getKeys sub (k2 :: rest2).dropLast ≠ some (Json.obj o) := by
            intro o hcon
            exact hno o (by simp [getKeys, hsub, hcon])
          simp [setKeys, hsub, ih sub v (by simp) hno2, Except.map]
      | null => rfl
      | bool b => rfl
      | num n => rfl
      | str s => rfl
      | arr xs => rfl

/-! ### Claims C1-C3 -/

/-- C1 counterexample: the Field-Path Resolver itself has no position
special case.  On a concrete element object that lacks a `props` key,
setting the field path `props.position.x` through the resolver raises
`PathError` instead of creating the intermediate objects. -/
theorem resolver_position_path_fails_cx :
    update_field (Json.obj [("id", Json.str "el1")]) "props.position.x" (Json.num 42)
      = Except.error PathError.pathError ∧
    update_field_set (Json.obj [("id", Json.str "el1")]) "props.position.x" (Json.num 42)
      = Except.error PathError.pathError := by
  exact ⟨rfl, rfl⟩

/-- C1 (amended): the lazy creation of `props` and `props.position` lives
in the canvas drag write-back (`DraggableWidget.itemChange`), which
bypasses the resolver: for every element object lacking `props` (or with
an object `props` lacking `position`), the write-back succeeds, creates
the intermediate objects, and sets both coordinates, after which reading
`props.position.x` / `props.position.y` yields the assigned values —
while the resolver's `set` on such an element raises `PathError`. -/
theorem splitDot_ppx : splitDot "props.position.x" = ["props", "position", "x"] := rfl

theorem splitDot_ppy : splitDot "props.position.y" = ["props", "position", "y"] := rfl

theorem itemChange_creates_position (e : Json) (nx ny : Json)
    (h : unpositioned e = true) :
    (∃ e2, itemChange e nx ny = Except.ok e2 ∧
      getPath e2 "props.position.x" = some nx ∧
      getPath e2 "props.position.y" = some ny) ∧
    update_field_set e "props.position.x" nx = Except.error PathError.pathError := by
  cases e with
  | obj kvs =>
    cases hp : lookup kvs "props" with
    | none =>
      constructor
      · refine ⟨Json.obj (pyInsert kvs "props"
          (Json.obj [("position", Json.obj [("x", nx), ("y", ny)])])), ?_, ?_, ?_⟩
        · simp [itemChange, hp]
        · simp only [getPath, splitDot_ppx]
          simp [getKeys, lookup_pyInsert, lookup]
        · simp only [getPath, splitDot_ppy]
          simp [getKeys, lookup_pyInsert, lookup]
      · unfold update_field_set
        rw [splitDot_ppx]
        apply setKeys_error_of_no_walk _ _ _ (by simp)
        intro o
        show getKeys (Json.obj kvs) ["props", "position"] ≠ some (Json.obj o)
        simp [getKeys, hp]
    | some props =>
      cases props with
      | obj pkvs =>
        have hpos : lookup pkvs "position" = none := by
          simpa [unpositioned, hp, Option.isNone_iff_eq_none] using h
        constructor
        · refine ⟨Json.obj (pyInsert kvs "props"
            (Json.obj (pyInsert pkvs "position"
              (Json.obj [("x", nx), ("y", ny)])))), ?_, ?_, ?_⟩
          · simp [itemChange, hp, hpos]
          · simp only [getPath, splitDot_ppx]
            simp [getKeys, lookup_pyInsert, lookup]
          · simp only [getPath, splitDot_ppy]
            simp [getKeys, lookup_pyInsert, lookup]
        · unfold update_field_set
          rw [splitDot_ppx]
          apply setKeys_error_of_no_walk _ _ _ (by simp)
          intro o
          show getKeys (Json.obj kvs) ["props", "position"] ≠ some (Json.obj o)
          simp [getKeys, hp, hpos]
      | null => simp [unpositioned, hp] at h
      | bool b => simp [unpositioned, hp] at h
      | num n => simp [unpositioned, hp] at h
      | str s => simp [unpositioned, hp] at h
      | arr xs => simp [unpositioned, hp] at h
  | null => simp [unpositioned] at h
  | bool b => simp [unpositioned] at h
  | num n => simp [unpositioned] at h
  | str s => simp [unpositioned] at h
  | arr xs => simp [unpositioned] at h

/-- C1 witness: the amended statement at a concrete element `{"id": "el1"}`
dragged to x = 30, y = 40. -/
theorem itemChange_creates_position_w :
    unpositioned (Json.obj [("id", Json.str "el1")]) = true ∧
    ((∃ e2, itemChange (Json.obj [("id", Json.str "el1")]) (Json.num 30) (Json.num 40)
        = Except.ok e2 ∧
      getPath e2 "props.position.x" = some (Json.num 30) ∧
      getPath e2 "props.position.y" = some (Json.num 40)) ∧
    update_field_set (Json.obj [("id", Json.str "el1")]) "props.position.x" (Json.num 30)
      = Except.error PathError.pathError) :=
  ⟨rfl, itemChange_creates_position (Json.obj [("id", Json.str "el1")])
    (Json.num 30) (Json.num 40) rfl⟩

/-- C2: outside the position special case (which the resolver in fact
never has), `set` fails with `PathError` whenever the walk over all but
the last segment does not land on an object — an intermediate segment is
missing or names a non-object value. -/
theorem resolver_missing_intermediate_fails (doc : Json) (path : String) (v : Json)
    (hkeys : splitDot path ≠ [])
    (hno : ∀ o, getKeys doc (splitDot path).dropLast ≠ some (Json.obj o)) :
    update_field_set doc path v = Except.error PathError.pathError :=
  setKeys_error_of_no_walk (splitDot path) doc v hkeys hno

/-- C2 witness: `set(doc, "a.missing.c", v)` where `doc.a` exists as an
object without a `missing` key fails with `PathError`. -/
theorem resolver_missing_intermediate_fails_w :
    splitDot "a.missing.c" ≠ [] ∧
    (∀ o, getKeys (Json.obj [("a", Json.obj [("x", Json.num 1)])])
        (splitDot "a.missing.c").dropLast ≠ some (Json.obj o)) ∧
    update_field_set (Json.obj [("a", Json.obj [("x", Json.num 1)])]) "a.missing.c"
      (Json.num 7) = Except.error PathError.pathError := by
  refine ⟨by simp [splitDot, splitDotAux], ?_, ?_⟩
  · intro o
    show getKeys _ ["a", "missing"] ≠ _
    simp [getKeys, lookup]
  · exact resolver_missing_intermediate_fails _ "a.missing.c" _
      (by simp [splitDot, splitDotAux])
      (by intro o; show getKeys _ ["a", "missing"] ≠ _; simp [getKeys, lookup])

/-- C3: when the walk over all intermediate segments lands on an object,
`set` succeeds, assigning the value at the final segment key (inserting
or overwriting), and reading the same dotted path afterwards yields the
assigned value. -/
theorem resolver_set_then_get (doc : Json) (path : String) (v : Json)
    (o : List (String × Json))
    (hkeys : splitDot path ≠ [])
    (hwalk : getKeys doc (splitDot path).dropLast = some (Json.obj o)) :
    ∃ doc2, update_field_set doc path v = Except.ok doc2 ∧
      getPath doc2 path = some v :=
  setKeys_ok_of_walk (splitDot path) doc o v hkeys hwalk

/-- C3 witness: `set(doc, "a.b.c", v)` on `{"a": {"b": {}}}` succeeds and
reading `doc.a.b.c` afterwards yields `v`. -/
theorem resolver_set_then_get_w :
    splitDot "a.b.c" ≠ [] ∧
    getKeys (Json.obj [("a", Json.obj [("b", Json.obj [])])])
      (splitDot "a.b.c").dropLast = some (Json.obj []) ∧
    (∃ doc2, update_field_set (Json.obj [("a", Json.obj [("b", Json.obj [])])])
        "a.b.c" (Json.num 9) = Except.ok doc2 ∧
      getPath doc2 "a.b.c" = some (Json.num 9)) :=
  ⟨by simp [splitDot, splitDotAux], rfl,
   resolver_set_then_get _ "a.b.c" (Json.num 9) [] (by simp [splitDot, splitDotAux]) rfl⟩

/-- C7: evaluation at the failing input.  A float-valued property `1.5`
gets the integer spin box and is truncated to `1` (its fractional part is
lost although its declared type is float), while the claimed clamping
range itself is honoured: in-range integers are kept, out-of-range ones
are clamped to ±999999. -/
theorem numeric_editor_truncates_floats :
    spin_widget_for (PyNumber.float (3 / 2)) = SpinKind.intSpin ∧
    spin_initial (PyNumber.float (3 / 2)) = 1 ∧
    (3 / 2 : ℚ) ≠ ((1 : Int) : ℚ) ∧
    spin_initial (PyNumber.int 5) = 5 ∧
    spin_initial (PyNumber.int 1000000) = 999999 ∧
    spin_initial (PyNumber.int (-1000000)) = -999999 := by
  refine ⟨rfl, ?_, by norm_num, by decide, by decide, by decide⟩
  have hq : (0 : ℚ) ≤ 3 / 2 := by norm_num
  have hf : ⌊(3 / 2 : ℚ)⌋ = 1 := by
    rw [Int.floor_eq_iff]
    norm_num
  simp [spin_initial, intOf, hq, hf, spinClamp]

theorem add_widget_unpositioned (ws : List CanvasWidget) (e : Json)
    (h : unpositioned e = true) :
    add_widget ws e = some (ws ++
      [⟨e, Json.num (50 + 20 * (ws.length : Int)),
        Json.num (50 + 20 * (ws.length : Int)), Json.num 150, Json.num 100⟩]) := by
  cases e with
  | obj kvs =>
    cases hp : lookup kvs "props" with
    | none => simp [add_widget, pyGetD, hp, lookup]
    | some props =>
      cases props with
      | obj pkvs =>
        have hpos : lookup pkvs "position" = none := by
          simpa [unpositioned, hp, Option.isNone_iff_eq_none] using h
        simp [add_widget, pyGetD, hp, hpos, lookup]
      | null => simp [unpositioned, hp] at h
      | bool b => simp [unpositioned, hp] at h
      | num n => simp [unpositioned, hp] at h
      | str s => simp [unpositioned, hp] at h
      | arr xs => simp [unpositioned, hp] at h
  | null => simp [unpositioned] at h
  | bool b => simp [unpositioned] at h
  | num n => simp [unpositioned] at h
  | str s => simp [unpositioned] at h
  | arr xs => simp [unpositioned] at h

theorem addAll_unpositioned (es : List Json) :
    ∀ acc : List CanvasWidget, (∀ e ∈ es, unpositioned e = true) →
    addAll (some acc) es = some (acc ++ defaultWidgets acc.length es) := by
  induction es with
  | nil => intro acc _; simp [addAll, defaultWidgets]
  | cons e rest ih =>
    intro acc h
    have he : unpositioned e = true := h e (by simp)
    have hrest : ∀ x ∈ rest, unpositioned x = true := fun x hx => h x (by simp [hx])
    have step : addAll (some acc) (e :: rest) =
        addAll (some (acc ++
          [⟨e, Json.num (50 + 20 * (acc.length : Int)),
            Json.num (50 + 20 * (acc.length : Int)), Json.num 150, Json.num 100⟩])) rest := by
      simp [addAll, add_widget_unpositioned acc e he]
    rw [step, ih _ hrest]
    simp [defaultWidgets, List.append_assoc]

/-- C8: in a document whose canvas elements all lack a `position` object,
the i-th added shape (counting every shape already on the canvas) is
placed at `(50 + 20*i, 50 + 20*i)` with default size 150×100. -/
theorem canvas_default_stacking (doc : Json) (ms es : List Json)
    (hm : getElems doc "moduleElements" = some ms)
    (he : getElems doc "enhancedData" = some es)
    (hall : ∀ e ∈ ms ++ es, unpositioned e = true) :
    load_canvas doc = some (defaultWidgets 0 (ms ++ es)) := by
  rw [load_canvas, hm, he]
  simpa using addAll_unpositioned (ms ++ es) [] hall

/-- C8 witness: two position-less elements land at `(50, 50)` and
`(70, 70)`, each sized 150×100. -/
theorem canvas_default_stacking_w :
    getElems (Json.obj [("moduleElements",
        Json.arr [Json.obj [("id", Json.str "a")], Json.obj [("id", Json.str "b")]])])
      "moduleElements"
      = some [Json.obj [("id", Json.str "a")], Json.obj [("id", Json.str "b")]] ∧
    getElems (Json.obj [("moduleElements",
        Json.arr [Json.obj [("id", Json.str "a")], Json.obj [("id", Json.str "b")]])])
      "enhancedData" = some [] ∧
    load_canvas (Json.obj [("moduleElements",
        Json.arr [Json.obj [("id", Json.str "a")], Json.obj [("id", Json.str "b")]])])
      = some [⟨Json.obj [("id", Json.str "a")], Json.num 50, Json.num 50,
                Json.num 150, Json.num 100⟩,
              ⟨Json.obj [("id", Json.str "b")], Json.num 70, Json.num 70,
                Json.num 150, Json.num 100⟩] := by
  refine ⟨rfl, rfl, ?_⟩
  have h := canvas_default_stacking
    (Json.obj [("moduleElements",
      Json.arr [Json.obj [("id", Json.str "a")], Json.obj [("id", Json.str "b")]])])
    [Json.obj [("id", Json.str "a")], Json.obj [("id", Json.str "b")]] []
    rfl rfl (by intro e he2; fin_cases he2 <;> rfl)
  simpa [defaultWidgets] using h

/-- C10: a scalar (non-dict, non-dict-headed-list) leaf gets a freshly
constructed `{key: value}` wrapper as its selection reference, not an
alias into the document; every subsequent property-form edit made while
that wrapper is selected leaves the document unchanged, and an edit of
the wrapped key rewrites only the wrapper. -/
theorem tree_leaf_selection_detached (path : List String) (doc : Json)
    (k : String) (v : Json)
    (hobj : isObjVal v = false) (hlist : isDictHeadedList v = false) :
    tree_item_ref path k v = some (Selection.detached (Json.obj [(k, v)])) ∧
    (∀ (p : String) (val : Json),
      (applyFormEdit doc (Selection.detached (Json.obj [(k, v)])) p val).1 = doc) ∧
    (∀ val : Json, splitDot k = [k] →
      applyFormEdit doc (Selection.detached (Json.obj [(k, v)])) k val
        = (doc, Selection.detached (Json.obj [(k, val)]))) := by
  refine ⟨?_, ?_, ?_⟩
  · cases v with
    | obj kvs => simp [isObjVal] at hobj
    | null => simp [tree_item_ref, hlist]
    | bool b => simp [tree_item_ref, hlist]
    | num n => simp [tree_item_ref, hlist]
    | str s => simp [tree_item_ref, hlist]
    | arr xs => simp [tree_item_ref, hlist]
  · intro p val
    cases h : update_field (Json.obj [(k, v)]) p val with
    | ok w2 => simp [applyFormEdit, h]
    | error e2 => simp [applyFormEdit, h]
  · intro val hk
    have hupd : update_field (Json.obj [(k, v)]) k val
        = Except.ok (Json.obj [(k, val)]) := by
      simp [update_field, update_field_set, hk, setKeys, pyInsert]
    simp [applyFormEdit, hupd]

/-- C10 witness: the leaf `x: 5` wrapper at a concrete document; editing
`x` to 7 leaves the document untouched and rewrites the wrapper. -/
theorem tree_leaf_selection_detached_w :
    isObjVal (Json.num 5) = false ∧ isDictHeadedList (Json.num 5) = false ∧
    (tree_item_ref [] "x" (Json.num 5)
        = some (Selection.detached (Json.obj [("x", Json.num 5)])) ∧
      (∀ (p : String) (val : Json),
        (applyFormEdit (Json.obj [("a", Json.num 1)])
          (Selection.detached (Json.obj [("x", Json.num 5)])) p val).1
          = Json.obj [("a", Json.num 1)]) ∧
      (∀ val : Json, splitDot "x" = ["x"] →
        applyFormEdit (Json.obj [("a", Json.num 1)])
          (Selection.detached (Json.obj [("x", Json.num 5)])) "x" val
          = (Json.obj [("a", Json.num 1)],
             Selection.detached (Json.obj [("x", val)])))) :=
  ⟨rfl, rfl, tree_leaf_selection_detached [] (Json.obj [("a", Json.num 1)])
    "x" (Json.num 5) rfl rfl⟩

theorem mk_data (s : String) : String.mk s.data = s := rfl

theorem allWsL_nlIndent (lvl : Nat) : allWsL (nlIndent lvl) := by
  intro c hc
  simp only [nlIndent, List.mem_cons] at hc
  rcases hc with h | h
  · subst h; rfl
  · rw [List.eq_of_mem_replicate h]; rfl

theorem skipWs_append_ws (ws s : List Char) (h : allWsL ws) :
    skipWs (ws ++ s) = skipWs s := by
  induction ws with
  | nil => rfl
  | cons c rest ih =>
    have hc : isWs c = true := h c (by simp)
    simp only [List.cons_append, skipWs, hc, if_true]
    exact ih (fun x hx => h x (by simp [hx]))

theorem skipWs_eq_self (s : List Char) (h : startsSolid s) : skipWs s = s := by
  cases s with
  | nil => rfl
  | cons c rest => simp only [startsSolid] at h; simp [skipWs, h]

theorem startsSolid_append (l r : List Char) (h : startsSolid l) :
    startsSolid (l ++ r) := by
  cases l with
  | nil => exact absurd h (by simp [startsSolid])
  | cons c rest => exact h

theorem numBoundary_of_ws (c : Char) (l : List Char) (h : isWs c = true) :
    numBoundary (c :: l) := by
  simp only [isWs, Bool.or_eq_true, beq_iff_eq] at h
  rcases h with ((h | h) | h) | h <;> subst h <;>
    exact ⟨by decide, by decide, by decide, by decide⟩

theorem numBoundary_of_allWs (tl rest : List Char) (htl : allWsL tl)
    (hrest : numBoundary rest) : numBoundary (tl ++ rest) := by
  cases tl with
  | nil => exact hrest
  | cons c l => exact numBoundary_of_ws c _ (htl c (by simp))

/-! ### Round-trip infrastructure: decimal digits -/

theorem natCharsAux_eq (fuel : Nat) :
    ∀ (n : Nat) (acc : List Char), n ≤ fuel →
    natCharsAux fuel n acc
      = ((Nat.digits 10 n).reverse.map (fun d => Char.ofNat (48 + d))) ++ acc := by
  induction fuel with
  | zero =>
    intro n acc h
    obtain rfl : n = 0 := Nat.le_zero.mp h
    simp [natCharsAux]
  | succ fuel ih =>
    intro n acc h
    by_cases h0 : n = 0
    · subst h0; simp [natCharsAux]
    · have hdig : Nat.digits 10 n = n % 10 :: Nat.digits 10 (n / 10) :=
        Nat.digits_def' (by norm_num) (Nat.pos_of_ne_zero h0)

      have hlt : n / 10 ≤ fuel := by
        have : n / 10 < n := Nat.div_lt_self (Nat.pos_of_ne_zero h0) (by norm_num)
        omega
      simp only [natCharsAux, h0, if_false]
      rw [ih (n / 10) _ hlt, hdig]
      simp

theorem natChars_eq (n : Nat) :
    natChars n = if n = 0 then ['0']
      else ((Nat.digits 10 n).reverse.map (fun d => Char.ofNat (48 + d))) := by
  by_cases h0 : n = 0
  · simp [natChars, h0]
  · simp [natChars, h0, natCharsAux_eq n n [] (le_refl n)]

theorem toNat_ofNat_digit (d : Nat) (h : d < 10) :
    (Char.ofNat (48 + d)).toNat = 48 + d := by
  interval_cases d <;> decide

theorem isDigitChar_ofNat_digit (d : Nat) (h : d < 10) :
    isDigitChar (Char.ofNat (48 + d)) = true := by
  interval_cases d <;> decide

theorem natChars_all_digits (n : Nat) :
    ∀ c ∈ natChars n, isDigitChar c = true := by
  intro c hc
  rw [natChars_eq] at hc
  by_cases h0 : n = 0
  · simp [h0] at hc; subst hc; decide
  · simp only [h0, if_false, List.mem_map, List.mem_reverse] at hc
    obtain ⟨d, hd, rfl⟩ := hc
    exact isDigitChar_ofNat_digit d (Nat.digits_lt_base (by norm_num) hd)

theorem digitsVal_append_one (A : List Char) (c : Char) :
    digitsVal (A ++ [c]) = 10 * digitsVal A + (c.toNat - 48) := by
  simp [digitsVal, List.foldl_append]

theorem digitsVal_digits (L : List Nat) (hL : ∀ d ∈ L, d < 10) :
    digitsVal (L.reverse.map (fun d => Char.ofNat (48 + d))) = Nat.ofDigits 10 L := by
  induction L with
  | nil => simp [digitsVal, Nat.ofDigits]
  | cons d ds ih =>
    have hd : d < 10 := hL d (by simp)
    simp only [List.reverse_cons, List.map_append, List.map_cons, List.map_nil]
    rw [digitsVal_append_one, ih (fun x hx => hL x (by simp [hx])),
      toNat_ofNat_digit d hd, Nat.ofDigits_cons]
    omega

theorem digitsVal_natChars (n : Nat) : digitsVal (natChars n) = n := by
  rw [natChars_eq]
  by_cases h0 : n = 0
  · subst h0; decide
  · simp only [h0, if_false]
    rw [digitsVal_digits _ (fun d hd => Nat.digits_lt_base (by norm_num) hd),
      Nat.ofDigits_digits]

theorem natChars_spec (n : Nat) (h : n ≠ 0) :
    ∃ c cs, natChars n = c :: cs ∧ c ≠ '0' ∧ isDigitChar c = true ∧
      (∀ x ∈ cs, isDigitChar x = true) := by
  have hne : Nat.digits 10 n ≠ [] := Nat.digits_ne_nil_iff_ne_zero.mpr h
  have hrevne : (Nat.digits 10 n).reverse ≠ [] := by simpa using hne
  obtain ⟨d, ds, hds⟩ := List.exists_cons_of_ne_nil hrevne
  have hdlast : d ∈ Nat.digits 10 n := by
    have : d ∈ (Nat.digits 10 n).reverse := by rw [hds]; simp
    simpa using this
  have hd10 : d < 10 := Nat.digits_lt_base (by norm_num) hdlast
  have hd0 : d ≠ 0 := by
    have hgl : (Nat.digits 10 n).getLast? = some d := by
      rw [← List.head?_reverse, hds]; rfl
    have hlast := Nat.getLast_digit_ne_zero 10 h
    have heq : (Nat.digits 10 n).getLast hne = d := by
      rw [List.getLast?_eq_getLast _ hne] at hgl
      exact Option.some_inj.mp hgl
    rw [← heq]
    exact hlast
  refine ⟨Char.ofNat (48 + d), ds.map (fun x => Char.ofNat (48 + x)), ?_, ?_, ?_, ?_⟩
  · rw [natChars_eq]; simp only [h, if_false, hds, List.map_cons]
  · intro hcon
    have h1 : (Char.ofNat (48 + d)).toNat = 48 + d := toNat_ofNat_digit d hd10
    rw [hcon] at h1
    have : (48 : Nat) = 48 + d := by simpa using h1
    omega
  · exact isDigitChar_ofNat_digit d hd10
  · intro x hx
    simp only [List.mem_map] at hx
    obtain ⟨e, he, rfl⟩ := hx
    have : e ∈ (Nat.digits 10 n).reverse := by rw [hds]; simp [he]
    exact isDigitChar_ofNat_digit e (Nat.digits_lt_base (by norm_num) (by simpa using this))

theorem takeWhile_all_append (p : Char → Bool) (l1 l2 : List Char)
    (h : ∀ c ∈ l1, p c = true) :
    (l1 ++ l2).takeWhile p = l1 ++ l2.takeWhile p := by
  induction l1 with
  | nil => simp
  | cons c rest ih =>
    have hc := h c (by simp)
    simp [List.takeWhile_cons, hc, ih (fun x hx => h x (by simp [hx]))]

theorem dropWhile_all_append (p : Char → Bool) (l1 l2 : List Char)
    (h : ∀ c ∈ l1, p c = true) :
    (l1 ++ l2).dropWhile p = l2.dropWhile p := by
  induction l1 with
  | nil => simp
  | cons c rest ih =>
    have hc := h c (by simp)
    simp [List.dropWhile_cons, hc, ih (fun x hx => h x (by simp [hx]))]

theorem takeWhile_boundary (l : List Char) (h : numBoundary l) :
    l.takeWhile isDigitChar = [] ∧ l.dropWhile isDigitChar = l := by
  cases l with
  | nil => simp
  | cons c rest =>
    obtain ⟨h1, -, -, -⟩ := h
    simp [List.takeWhile_cons, List.dropWhile_cons, h1]

theorem parseNatNum_natChars (n : Nat) (rest : List Char) (h : numBoundary rest) :
    parseNatNum (natChars n ++ rest) = some (n, rest) := by
  by_cases h0 : n = 0
  · subst h0
    show parseNatNum (['0'] ++ rest) = some (0, rest)
    cases rest with
    | nil => rfl
    | cons c2 tl =>
      obtain ⟨h1, h2, h3, h4⟩ := h
      simp [parseNatNum, h1, h2, h3, h4]
  · obtain ⟨c, cs, hnc, hc0, hcd, hcs⟩ := natChars_spec n h0
    have hval : digitsVal (c :: cs) = n := by
      have := digitsVal_natChars n
      rwa [hnc] at this
    have htake : (cs ++ rest).takeWhile isDigitChar = cs := by
      rw [takeWhile_all_append _ _ _ hcs, (takeWhile_boundary rest h).1, List.append_nil]
    have hdrop : (cs ++ rest).dropWhile isDigitChar = rest := by
      rw [dropWhile_all_append _ _ _ hcs, (takeWhile_boundary rest h).2]
    rw [hnc]
    show parseNatNum (c :: (cs ++ rest)) = some (n, rest)
    simp only [parseNatNum, hc0, if_false, hcd, if_true]
    rw [hdrop, htake]
    cases rest with
    | nil => simp [hval]
    | cons c2 tl =>
      obtain ⟨h1, h2, h3, h4⟩ := h
      simp [h2, h3, h4, hval]

theorem isDigitChar_ne (c : Char) (h : c = '-' ∨ isDigitChar c = true) :
    c ≠ '"' ∧ c ≠ '\x7b' ∧ c ≠ '[' ∧ c ≠ 't' ∧ c ≠ 'f' ∧ c ≠ 'n' ∧ isWs c = false := by
  have hn : 45 ≤ c.toNat ∧ c.toNat ≤ 57 := by
    rcases h with h | h
    · subst h; exact ⟨by decide, by decide⟩
    · simp only [isDigitChar, Bool.and_eq_true, decide_eq_true_eq] at h
      omega
  have hw : isWs c = false := by
    cases hw : isWs c with
    | false => rfl
    | true =>
      simp only [isWs, Bool.or_eq_true, beq_iff_eq] at hw
      rcases hw with ((h1 | h1) | h1) | h1 <;> subst h1 <;> exact absurd hn (by decide)
  refine ⟨?_, ?_, ?_, ?_, ?_, ?_, hw⟩ <;>
    (intro hc; subst hc; exact absurd hn (by decide))

theorem natChars_head_digit (n : Nat) :
    ∃ c cs, natChars n = c :: cs ∧ isDigitChar c = true := by
  by_cases h0 : n = 0
  · subst h0; exact ⟨'0', [], rfl, by decide⟩
  · obtain ⟨c, cs, hnc, -, hcd, -⟩ := natChars_spec n h0
    exact ⟨c, cs, hnc, hcd⟩

theorem intChars_spec (i : Int) :
    ∃ c cs, intChars i = c :: cs ∧ (c = '-' ∨ isDigitChar c = true) := by
  cases i with
  | ofNat n =>
    obtain ⟨c, cs, hnc, hcd⟩ := natChars_head_digit n
    exact ⟨c, cs, hnc, Or.inr hcd⟩
  | negSucc m => exact ⟨'-', natChars (m + 1), rfl, Or.inl rfl⟩

theorem parseNumber_intChars (i : Int) (rest : List Char) (h : numBoundary rest) :
    parseNumber (intChars i ++ rest) = some (Json.num i, rest) := by
  cases i with
  | ofNat n =>
    obtain ⟨c, cs, hnc, hcd⟩ := natChars_head_digit n
    have hcm : c ≠ '-' := by
      intro hcon; subst hcon; revert hcd; decide
    have hinput : intChars (Int.ofNat n) ++ rest = c :: (cs ++ rest) := by
      show natChars n ++ rest = c :: (cs ++ rest)
      rw [hnc]; rfl
    rw [hinput]
    simp only [parseNumber, hcm, if_false]
    have hp : parseNatNum (c :: (cs ++ rest)) = some (n, rest) := by
      have := parseNatNum_natChars n rest h
      rwa [hnc] at this
    rw [hp]
    rfl
  | negSucc m =>
    have hinput : intChars (Int.negSucc m) ++ rest = '-' :: (natChars (m + 1) ++ rest) := rfl
    rw [hinput]
    simp only [parseNumber, if_pos rfl]
    rw [parseNatNum_natChars (m + 1) rest h]
    simp [Int.negSucc_eq]

/-! ### Round-trip infrastructure: strings -/

theorem hexVal_hexDigitChar (m : Nat) (h : m < 16) :
    hexVal (hexDigitChar m) = some m := by
  interval_cases m <;> decide

theorem decodeEsc_simple (e c2 : Char) (rest : List Char)
    (he : e ≠ 'u') (hu : unescapeChar e = some c2) :
    decodeEsc (e :: rest) = some (c2, rest) := by
  simp [decodeEsc, he, hu]

theorem decodeEsc_u (h1 h2 h3 h4 : Char) (rest : List Char) (n : Nat)
    (hhex : hex4 h1 h2 h3 h4 = some n) (hn : n < 55296) :
    decodeEsc ('u' :: h1 :: h2 :: h3 :: h4 :: rest) = some (Char.ofNat n, rest) := by
  simp [decodeEsc, hhex, hn]

theorem psb_quote (fuel : Nat) (acc rest : List Char) :
    parseStringBody (fuel + 1) acc ('"' :: rest)
      = some (String.mk acc.reverse, rest) := rfl

theorem psb_esc (fuel : Nat) (acc rest rest2 : List Char) (c2 : Char)
    (hd : decodeEsc rest = some (c2, rest2)) :
    parseStringBody (fuel + 1) acc ('\\' :: rest)
      = parseStringBody fuel (c2 :: acc) rest2 := by
  simp [parseStringBody, hd]

theorem psb_plain (fuel : Nat) (acc : List Char) (c : Char) (rest : List Char)
    (h1 : c ≠ '"') (h2 : c ≠ '\\') (h3 : ¬ c.toNat < 32) :
    parseStringBody (fuel + 1) acc (c :: rest)
      = parseStringBody fuel (c :: acc) rest := by
  simp [parseStringBody, h1, h2, h3]

theorem hex4_escape (t : Nat) (h : t < 32) :
    hex4 '0' '0' (hexDigitChar (t / 16)) (hexDigitChar (t % 16)) = some t := by
  have h1 : t / 16 < 16 := by omega
  have h2 : t % 16 < 16 := by omega
  simp only [hex4, hexVal_hexDigitChar _ h1, hexVal_hexDigitChar _ h2]
  have h3 : ((0 * 16 + 0) * 16 + t / 16) * 16 + t % 16 = t := by omega
  rw [show hexVal '0' = some 0 from by decide]
  simpa using h3

theorem parseStringBody_escChars (l : List Char) :
    ∀ (fuel : Nat) (acc rest : List Char), l.length < fuel →
    parseStringBody fuel acc (escChars l ++ '"' :: rest)
      = some (String.mk (acc.reverse ++ l), rest) := by
  induction l with
  | nil =>
    intro fuel acc rest hf
    cases fuel with
    | zero => omega
    | succ f =>
      show parseStringBody (f + 1) acc ('"' :: rest) = _
      rw [psb_quote]
      simp
  | cons c cs ih =>
    intro fuel acc rest hf
    cases fuel with
    | zero => omega
    | succ f =>
      have hcs : cs.length < f := by
        simp only [List.length_cons] at hf
        omega
      have hecons : escChars (c :: cs) ++ '"' :: rest
          = escapeChar c ++ (escChars cs ++ '"' :: rest) := by
        simp [escChars]
      rw [hecons]
      by_cases h1 : c = '"'
      · subst h1
        rw [show escapeChar '"' = ['\\', '"'] from rfl]
        simp only [List.cons_append, List.nil_append]
        rw [psb_esc f _ _ _ _ (decodeEsc_simple '"' '"' _ (by decide) (by decide)),
          ih f _ _ hcs]
        simp
      · by_cases h2 : c = '\\'
        · subst h2
          rw [show escapeChar '\\' = ['\\', '\\'] from rfl]
          simp only [List.cons_append, List.nil_append]
          rw [psb_esc f _ _ _ _ (decodeEsc_simple '\\' '\\' _ (by decide) (by decide)),
            ih f _ _ hcs]
          simp
        · by_cases h3 : c = '\n'
          · subst h3
            rw [show escapeChar '\n' = ['\\', 'n'] from rfl]
            simp only [List.cons_append, List.nil_append]
            rw [psb_esc f _ _ _ _ (decodeEsc_simple 'n' '\n' _ (by decide) (by decide)),
              ih f _ _ hcs]
            simp
          · by_cases h4 : c = '\t'
            · subst h4
              rw [show escapeChar '\t' = ['\\', 't'] from rfl]
              simp only [List.cons_append, List.nil_append]
              rw [psb_esc f _ _ _ _ (decodeEsc_simple 't' '\t' _ (by decide) (by decide)),
                ih f _ _ hcs]
              simp
            · by_cases h5 : c = '\r'
              · subst h5
                rw [show escapeChar '\r' = ['\\', 'r'] from rfl]
                simp only [List.cons_append, List.nil_append]
                rw [psb_esc f _ _ _ _ (decodeEsc_simple 'r' '\r' _ (by decide) (by decide)),
                  ih f _ _ hcs]
                simp
              · by_cases h6 : c = '\x08'
                · subst h6
                  rw [show escapeChar '\x08' = ['\\', 'b'] from rfl]
                  simp only [List.cons_append, List.nil_append]
                  rw [psb_esc f _ _ _ _ (decodeEsc_simple 'b' '\x08' _ (by decide) (by decide)),
                    ih f _ _ hcs]
                  simp
                · by_cases h7 : c = '\x0c'
                  · subst h7
                    rw [show escapeChar '\x0c' = ['\\', 'f'] from rfl]
                    simp only [List.cons_append, List.nil_append]
                    rw [psb_esc f _ _ _ _ (decodeEsc_simple 'f' '\x0c' _ (by decide) (by decide)),
                      ih f _ _ hcs]
                    simp
                  · by_cases h8 : c.toNat < 32
                    · have hesc : escapeChar c
                          = ['\\', 'u', '0', '0', hexDigitChar (c.toNat / 16),
                             hexDigitChar (c.toNat % 16)] := by
                        simp [escapeChar, h1, h2, h3, h4, h5, h6, h7, h8]
                      rw [hesc]
                      simp only [List.cons_append, List.nil_append]
                      rw [psb_esc f _ _ _ _
                          (decodeEsc_u _ _ _ _ _ c.toNat (hex4_escape c.toNat h8) (by omega)),
                        Char.ofNat_toNat, ih f _ _ hcs]
                      simp
                    · have hesc : escapeChar c = [c] := by
                        simp [escapeChar, h1, h2, h3, h4, h5, h6, h7, h8]
                      rw [hesc]
                      simp only [List.cons_append, List.nil_append]
                      rw [psb_plain f _ _ _ h1 h2 h8, ih f _ _ hcs]
                      simp

theorem escapeChar_length_pos (c : Char) : 1 ≤ (escapeChar c).length := by
  unfold escapeChar
  split_ifs <;> simp

theorem escChars_length (l : List Char) : l.length ≤ (escChars l).length := by
  induction l with
  | nil => simp [escChars]
  | cons c cs ih =>
    have h1 := escapeChar_length_pos c
    simp only [escChars, List.map_cons, List.flatten_cons, List.length_append,
      List.length_cons] at ih ⊢
    omega

/-- String serialization parses back to the same string at the fuel the
scanner is invoked with. -/
theorem parseStringBody_serStr (s : String) (rest : List Char) :
    parseStringBody ((escChars s.data ++ '"' :: rest).length + 1) []
      (escChars s.data ++ '"' :: rest) = some (s, rest) := by
  have h1 : s.data.length < (escChars s.data ++ '"' :: rest).length + 1 := by
    have h2 := escChars_length s.data
    simp only [List.length_append, List.length_cons]
    omega
  rw [parseStringBody_escChars s.data _ [] rest h1]
  simp [mk_data]

theorem jsize_pos (v : Json) : 1 ≤ jsize v := by
  cases v <;> simp [jsize]

theorem pyInsert_not_mem (kvs : List (String × Json)) (k : String) (v : Json)
    (h : k ∉ kvs.map Prod.fst) : pyInsert kvs k v = kvs ++ [(k, v)] := by
  induction kvs with
  | nil => rfl
  | cons p rest ih =>
    obtain ⟨k2, v2⟩ := p
    simp only [List.map_cons, List.mem_cons] at h
    push_neg at h
    have h1 : k2 ≠ k := fun hh => h.1 hh.symm
    simp [pyInsert, h1, ih h.2]

theorem mem_pyInsert (kvs : List (String × Json)) (k : String) (v : Json) :
    ∀ p ∈ pyInsert kvs k v, p ∈ kvs ∨ p = (k, v) := by
  induction kvs with
  | nil =>
    intro p hp
    simp only [pyInsert, List.mem_singleton] at hp
    exact Or.inr hp
  | cons q rest ih =>
    obtain ⟨k2, v2⟩ := q
    intro p hp
    by_cases hk : k2 = k
    · subst hk
      simp only [pyInsert, if_pos rfl] at hp
      cases hp with
      | head => exact Or.inr rfl
      | tail _ h2 => exact Or.inl (List.mem_cons_of_mem _ h2)
    · simp only [pyInsert, if_neg hk] at hp
      cases hp with
      | head => exact Or.inl (List.mem_cons_self _ _)
      | tail _ h2 =>
        rcases ih p h2 with h3 | h3
        · exact Or.inl (List.mem_cons_of_mem _ h3)
        · exact Or.inr h3

theorem map_fst_pyInsert (kvs : List (String × Json)) (k : String) (v : Json) :
    (pyInsert kvs k v).map Prod.fst
      = if k ∈ kvs.map Prod.fst then kvs.map Prod.fst
        else kvs.map Prod.fst ++ [k] := by
  induction kvs with
  | nil => simp [pyInsert]
  | cons q rest ih =>
    obtain ⟨k2, v2⟩ := q
    by_cases hk : k2 = k
    · subst hk
      simp [pyInsert]
    · have hk2 : k ≠ k2 := fun hh => hk hh.symm
      simp only [pyInsert, if_neg hk, List.map_cons, ih, List.mem_cons]
      by_cases hmem : k ∈ rest.map Prod.fst
      · simp [hmem, hk2]
      · simp [hmem, hk2]

theorem nodup_pyInsert (kvs : List (String × Json)) (k : String) (v : Json)
    (h : (kvs.map Prod.fst).Nodup) :
    ((pyInsert kvs k v).map Prod.fst).Nodup := by
  rw [map_fst_pyInsert]
  split_ifs with hmem
  · exact h
  · simp [List.nodup_append, h, hmem]

theorem wf_vals_pyInsert (kvs : List (String × Json)) (k : String) (v : Json)
    (h : ∀ p ∈ kvs, WF p.2) (hv : WF v) :
    ∀ p ∈ pyInsert kvs k v, WF p.2 := by
  intro p hp
  rcases mem_pyInsert kvs k v p hp with h2 | h2
  · exact h p h2
  · subst h2; exact hv

theorem numHead_props (c : Char) (h : c = '-' ∨ isDigitChar c = true) :
    isWs c = false ∧ c ≠ '"' ∧ c ≠ '\x7b' ∧ c ≠ '[' ∧ c ≠ 't' ∧ c ≠ 'f' ∧
      c ≠ 'n' ∧ c ≠ ']' ∧ c ≠ '\x7d' ∧ c ≠ ',' ∧ c ≠ ':' := by
  have hn : 45 ≤ c.toNat ∧ c.toNat ≤ 57 ∧ c.toNat ≠ 46 ∧ c.toNat ≠ 47 := by
    rcases h with h | h
    · subst h; refine ⟨by decide, by decide, by decide, by decide⟩
    · simp only [isDigitChar, Bool.and_eq_true, decide_eq_true_eq] at h
      omega
  have hw : isWs c = false := by
    cases hw : isWs c with
    | false => rfl
    | true =>
      simp only [isWs, Bool.or_eq_true, beq_iff_eq] at hw
      rcases hw with ((h1 | h1) | h1) | h1 <;> subst h1 <;> exact absurd hn (by decide)
  refine ⟨hw, ?_, ?_, ?_, ?_, ?_, ?_, ?_, ?_, ?_, ?_⟩ <;>
    (intro hc; subst hc; exact absurd hn (by decide))

/-- Every serialized value starts with a solid (non-whitespace)
character that is none of the container-structure punctuation marks. -/
theorem serVal_head (lvl : Nat) (v : Json) :
    ∃ c cs, serVal lvl v = c :: cs ∧ isWs c = false ∧
      c ≠ ']' ∧ c ≠ '\x7d' ∧ c ≠ ',' ∧ c ≠ ':' := by
  cases v with
  | null => exact ⟨'n', _, rfl, by decide, by decide, by decide, by decide, by decide⟩
  | bool b =>
    cases b with
    | true => exact ⟨'t', _, rfl, by decide, by decide, by decide, by decide, by decide⟩
    | false => exact ⟨'f', _, rfl, by decide, by decide, by decide, by decide, by decide⟩
  | num i =>
    obtain ⟨c, cs, hic, hd⟩ := intChars_spec i
    obtain ⟨hw, -, -, -, -, -, -, h8, h9, h10, h11⟩ := numHead_props c hd
    exact ⟨c, cs, hic, hw, h8, h9, h10, h11⟩
  | str s => exact ⟨'"', _, rfl, by decide, by decide, by decide, by decide, by decide⟩
  | arr xs =>
    cases xs with
    | nil => exact ⟨'[', _, rfl, by decide, by decide, by decide, by decide, by decide⟩
    | cons x xs2 =>
      exact ⟨'[', _, rfl, by decide, by decide, by decide, by decide, by decide⟩
  | obj kvs =>
    cases kvs with
    | nil => exact ⟨'\x7b', _, rfl, by decide, by decide, by decide, by decide, by decide⟩
    | cons p kvs2 =>
      obtain ⟨k, v2⟩ := p
      exact ⟨'\x7b', _, rfl, by decide, by decide, by decide, by decide, by decide⟩

theorem serVal_startsSolid (lvl : Nat) (v : Json) (rest : List Char) :
    startsSolid (serVal lvl v ++ rest) := by
  obtain ⟨c, cs, hser, hw, -, -, -, -⟩ := serVal_head lvl v
  rw [hser]
  exact hw

/-! ### Round-trip infrastructure: parser step lemmas -/

theorem pv_null (fuel : Nat) (rest : List Char) :
    parseVal (fuel + 1) ('n' :: 'u' :: 'l' :: 'l' :: rest) = some (Json.null, rest) := rfl

theorem pv_true (fuel : Nat) (rest : List Char) :
    parseVal (fuel + 1) ('t' :: 'r' :: 'u' :: 'e' :: rest) = some (Json.bool true, rest) := rfl

theorem pv_false (fuel : Nat) (rest : List Char) :
    parseVal (fuel + 1) ('f' :: 'a' :: 'l' :: 's' :: 'e' :: rest)
      = some (Json.bool false, rest) := rfl

theorem pv_arr_nil (fuel : Nat) (rest : List Char) :
    parseVal (fuel + 1) ('[' :: ']' :: rest) = some (Json.arr [], rest) := rfl

theorem pv_obj_nil (fuel : Nat) (rest : List Char) :
    parseVal (fuel + 1) ('\x7b' :: '\x7d' :: rest) = some (Json.obj [], rest) := rfl

theorem pv_str_step (fuel : Nat) (rest r2 : List Char) (s : String)
    (h : parseStringBody (rest.length + 1) [] rest = some (s, r2)) :
    parseVal (fuel + 1) ('"' :: rest) = some (Json.str s, r2) := by
  simp [parseVal, skipWs, isWs, h]

theorem pv_arr_step (fuel : Nat) (rest r2 : List Char) (c2 : Char)
    (h : skipWs rest = c2 :: r2) (hne : c2 ≠ ']') :
    parseVal (fuel + 1) ('[' :: rest) = parseElems fuel (c2 :: r2) [] := by
  simp [parseVal, skipWs, isWs, h, hne]

theorem pv_obj_step (fuel : Nat) (rest r2 : List Char) (c2 : Char)
    (h : skipWs rest = c2 :: r2) (hne : c2 ≠ '\x7d') :
    parseVal (fuel + 1) ('\x7b' :: rest) = parseMembers fuel (c2 :: r2) [] := by
  simp [parseVal, skipWs, isWs, h, hne]

theorem pv_num_step (fuel : Nat) (c : Char) (rest : List Char)
    (hd : c = '-' ∨ isDigitChar c = true) :
    parseVal (fuel + 1) (c :: rest) = parseNumber (c :: rest) := by
  obtain ⟨hw, h1, h2, h3, h4, h5, h6, -, -, -, -⟩ := numHead_props c hd
  simp [parseVal, skipWs, hw, h1, h2, h3, h4, h5, h6, hd]

theorem pe_step (fuel : Nat) (input : List Char) (acc : List Json) (v : Json)
    (rest : List Char) (hv : parseVal fuel input = some (v, rest)) :
    parseElems (fuel + 1) input acc
      = (match skipWs rest with
         | [] => none
         | c :: rest2 =>
           if c = ',' then parseElems fuel rest2 (v :: acc)
           else if c = ']' then some (Json.arr (v :: acc).reverse, rest2)
           else none) := by
  simp [parseElems, hv]

theorem pm_step (fuel : Nat) (input r r2 r4 r5 : List Char) (k : String) (v : Json)
    (acc : List (String × Json))
    (hskip : skipWs input = '"' :: r)
    (hk : parseStringBody (r.length + 1) [] r = some (k, r2))
    (hcolon : skipWs r2 = ':' :: r4)
    (hv : parseVal fuel r4 = some (v, r5)) :
    parseMembers (fuel + 1) input acc
      = (match skipWs r5 with
         | [] => none
         | c3 :: rest5 =>
           if c3 = ',' then parseMembers fuel rest5 (pyInsert acc k v)
           else if c3 = '\x7d' then some (Json.obj (pyInsert acc k v), rest5)
           else none) := by
  simp [parseMembers, hskip, hk, hcolon, hv]

theorem parseVal_eq_of_skipWs (fuel : Nat) (a b : List Char) (h : skipWs a = skipWs b) :
    parseVal (fuel + 1) a = parseVal (fuel + 1) b := by
  simp only [parseVal]
  rw [h]

theorem numBoundary_comma (l : List Char) : numBoundary (',' :: l) :=
  ⟨by decide, by decide, by decide, by decide⟩

theorem numBoundary_rbracket (l : List Char) : numBoundary (']' :: l) :=
  ⟨by decide, by decide, by decide, by decide⟩

theorem numBoundary_rbrace (l : List Char) : numBoundary ('\x7d' :: l) :=
  ⟨by decide, by decide, by decide, by decide⟩

theorem numBoundary_serArrRest (lvl : Nat) (xs : List Json) (tl rest : List Char)
    (htl : allWsL tl) :
    numBoundary (serArrRest lvl xs ++ (tl ++ (']' :: rest))) := by
  cases xs with
  | nil =>
    show numBoundary ([] ++ (tl ++ (']' :: rest)))
    rw [List.nil_append]
    exact numBoundary_of_allWs tl _ htl (numBoundary_rbracket rest)
  | cons x xs2 => exact numBoundary_comma _

theorem numBoundary_serObjRest (lvl : Nat) (kvs : List (String × Json))
    (tl rest : List Char) (htl : allWsL tl) :
    numBoundary (serObjRest lvl kvs ++ (tl ++ ('\x7d' :: rest))) := by
  cases kvs with
  | nil =>
    show numBoundary ([] ++ (tl ++ ('\x7d' :: rest)))
    rw [List.nil_append]
    exact numBoundary_of_allWs tl _ htl (numBoundary_rbrace rest)
  | cons p kvs2 =>
    obtain ⟨k2, v2⟩ := p
    exact numBoundary_comma _

theorem parse_serVal (fuel : Nat) : RTV fuel ∧ RTE fuel ∧ RTM fuel := by
  induction fuel using Nat.strong_induction_on with
  | _ fuel ih =>
    cases fuel with
    | zero =>
      refine ⟨?_, ?_, ?_⟩
      · intro v lvl ws rest hws hnb hwf hsz
        have := jsize_pos v
        omega
      · intro x xs lvl ws tl rest acc hws htl hwf hsz
        simp only [jsizeL] at hsz
        omega
      · intro k v kvs lvl ws tl rest acc hws htl hwf hnd hsz
        simp only [jsizeM] at hsz
        omega
    | succ f =>
      obtain ⟨ihV, ihE, ihM⟩ := ih f (by omega)
      refine ⟨?_, ?_, ?_⟩
      -- RTV
      · intro v lvl ws rest hws hnb hwf hsz
        have hstep : parseVal (f + 1) (ws ++ (serVal lvl v ++ rest))
            = parseVal (f + 1) (serVal lvl v ++ rest) :=
          parseVal_eq_of_skipWs f _ _ (by rw [skipWs_append_ws _ _ hws])
        rw [hstep]
        cases v with
        | null =>
          show parseVal (f + 1) (['n', 'u', 'l', 'l'] ++ rest) = _
          simp only [List.cons_append, List.nil_append]
          exact pv_null f rest
        | bool b =>
          cases b with
          | true =>
            show parseVal (f + 1) (['t', 'r', 'u', 'e'] ++ rest) = _
            simp only [List.cons_append, List.nil_append]
            exact pv_true f rest
          | false =>
            show parseVal (f + 1) (['f', 'a', 'l', 's', 'e'] ++ rest) = _
            simp only [List.cons_append, List.nil_append]
            exact pv_false f rest
        | num i =>
          obtain ⟨c, cs, hic, hd⟩ := intChars_spec i
          show parseVal (f + 1) (intChars i ++ rest) = _
          rw [hic]
          show parseVal (f + 1) (c :: (cs ++ rest)) = _
          rw [pv_num_step f c _ hd]
          rw [show c :: (cs ++ rest) = (c :: cs) ++ rest from rfl, ← hic]
          exact parseNumber_intChars i rest hnb
        | str s =>
          show parseVal (f + 1) (serStr s ++ rest) = _
          have hshape : serStr s ++ rest = '"' :: (escChars s.data ++ '"' :: rest) := by
            simp [serStr, List.append_assoc]
          rw [hshape]
          exact pv_str_step f _ _ s (parseStringBody_serStr s rest)
        | arr xs =>
          cases xs with
          | nil =>
            show parseVal (f + 1) (['[', ']'] ++ rest) = _
            simp only [List.cons_append, List.nil_append]
            exact pv_arr_nil f rest
          | cons x xs2 =>
            cases hwf with
            | arr _ hall =>
              have hshape : serVal lvl (Json.arr (x :: xs2)) ++ rest
                  = '[' :: (nlIndent (lvl + 1) ++ (serVal (lvl + 1) x ++
                      (serArrRest (lvl + 1) xs2 ++ (nlIndent lvl ++ (']' :: rest))))) := by
                simp [serVal, List.append_assoc]
              rw [hshape]
              obtain ⟨c2, cs2, hser2, hw2, hne2, -, -, -⟩ := serVal_head (lvl + 1) x
              have hskip2 : skipWs (nlIndent (lvl + 1) ++ (serVal (lvl + 1) x ++
                  (serArrRest (lvl + 1) xs2 ++ (nlIndent lvl ++ (']' :: rest)))))
                  = c2 :: (cs2 ++ (serArrRest (lvl + 1) xs2 ++ (nlIndent lvl ++ (']' :: rest)))) := by
                rw [skipWs_append_ws _ _ (allWsL_nlIndent _),
                  skipWs_eq_self _ (serVal_startsSolid _ _ _), hser2]
                rfl
              rw [pv_arr_step f _ _ c2 hskip2 hne2]
              rw [show c2 :: (cs2 ++ (serArrRest (lvl + 1) xs2 ++ (nlIndent lvl ++ (']' :: rest))))
                  = (c2 :: cs2) ++ (serArrRest (lvl + 1) xs2 ++ (nlIndent lvl ++ (']' :: rest)))
                  from rfl, ← hser2]
              have := ihE x xs2 (lvl + 1) [] (nlIndent lvl) rest []
                (by intro c hc; simp at hc) (allWsL_nlIndent _) hall
                (by simp only [jsize] at hsz; omega)
              simpa using this
        | obj kvs =>
          cases kvs with
          | nil =>
            show parseVal (f + 1) (['\x7b', '\x7d'] ++ rest) = _
            simp only [List.cons_append, List.nil_append]
            exact pv_obj_nil f rest
          | cons p kvs2 =>
            obtain ⟨k, v2⟩ := p
            cases hwf with
            | obj _ hnd hall =>
              have hshape : serVal lvl (Json.obj ((k, v2) :: kvs2)) ++ rest
                  = '\x7b' :: (nlIndent (lvl + 1) ++ (serStr k ++ (':' :: ' ' ::
                      (serVal (lvl + 1) v2 ++ (serObjRest (lvl + 1) kvs2 ++
                        (nlIndent lvl ++ ('\x7d' :: rest))))))) := by
                simp [serVal, List.append_assoc]
              rw [hshape]
              have hskip2 : skipWs (nlIndent (lvl + 1) ++ (serStr k ++ (':' :: ' ' ::
                  (serVal (lvl + 1) v2 ++ (serObjRest (lvl + 1) kvs2 ++
                    (nlIndent lvl ++ ('\x7d' :: rest)))))))
                  = '"' :: ((escChars k.data ++ ['"']) ++ (':' :: ' ' ::
                      (serVal (lvl + 1) v2 ++ (serObjRest (lvl + 1) kvs2 ++
                        (nlIndent lvl ++ ('\x7d' :: rest)))))) := by
                rw [skipWs_append_ws _ _ (allWsL_nlIndent _)]
                rfl
              rw [pv_obj_step f _ _ '"' hskip2 (by decide)]
              have hback : '"' :: ((escChars k.data ++ ['"']) ++ (':' :: ' ' ::
                  (serVal (lvl + 1) v2 ++ (serObjRest (lvl + 1) kvs2 ++
                    (nlIndent lvl ++ ('\x7d' :: rest))))))
                  = [] ++ (serStr k ++ (':' :: ' ' ::
                      (serVal (lvl + 1) v2 ++ (serObjRest (lvl + 1) kvs2 ++
                        (nlIndent lvl ++ ('\x7d' :: rest)))))) := by
                simp [serStr, List.append_assoc]
              rw [hback]
              have := ihM k v2 kvs2 (lvl + 1) [] (nlIndent lvl) rest []
                (by intro c hc; simp at hc) (allWsL_nlIndent _) hall
                (by simpa using hnd)
                (by simp only [jsize] at hsz; omega)
              simpa using this
      -- RTE
      · intro x xs lvl ws tl rest acc hws htl hwf hsz
        have hx : parseVal f (ws ++ (serVal lvl x ++
            (serArrRest lvl xs ++ (tl ++ (']' :: rest)))))
            = some (x, serArrRest lvl xs ++ (tl ++ (']' :: rest))) :=
          ihV x lvl ws _ hws (numBoundary_serArrRest lvl xs tl rest htl)
            (hwf x (by simp)) (by simp only [jsizeL] at hsz; omega)
        rw [pe_step f _ acc x _ hx]
        cases xs with
        | nil =>
          have hsk : skipWs (serArrRest lvl ([] : List Json) ++ (tl ++ (']' :: rest)))
              = ']' :: rest := by
            show skipWs ([] ++ (tl ++ (']' :: rest))) = _
            rw [List.nil_append, skipWs_append_ws _ _ htl]
            rfl
          rw [hsk]
          simp
        | cons x2 xs2 =>
          have hsk : skipWs (serArrRest lvl (x2 :: xs2) ++ (tl ++ (']' :: rest)))
              = ',' :: (nlIndent lvl ++ (serVal lvl x2 ++
                  (serArrRest lvl xs2 ++ (tl ++ (']' :: rest))))) := by
            have hshape : serArrRest lvl (x2 :: xs2) ++ (tl ++ (']' :: rest))
                = ',' :: (nlIndent lvl ++ (serVal lvl x2 ++
                    (serArrRest lvl xs2 ++ (tl ++ (']' :: rest))))) := by
              simp [serArrRest, List.append_assoc]
            rw [hshape]
            rfl
          rw [hsk]
          have := ihE x2 xs2 lvl (nlIndent lvl) tl rest (x :: acc)
            (allWsL_nlIndent _) htl (fun e he => hwf e (by simp at he ⊢; tauto))
            (by simp only [jsizeL] at hsz ⊢; omega)
          simpa [List.append_assoc] using this
      -- RTM
      · intro k v kvs lvl ws tl rest acc hws htl hwf hnd hsz
        have hknotin : k ∉ acc.map Prod.fst := by
          intro hmem
          rw [List.map_append] at hnd
          have hdisj := (List.nodup_append.mp hnd).2.2
          exact hdisj hmem (by simp)
        have hskip : skipWs (ws ++ (serStr k ++ (':' :: ' ' ::
            (serVal lvl v ++ (serObjRest lvl kvs ++ (tl ++ ('\x7d' :: rest)))))))
            = '"' :: (escChars k.data ++ ('"' :: (':' :: ' ' ::
                (serVal lvl v ++ (serObjRest lvl kvs ++ (tl ++ ('\x7d' :: rest))))))) := by
          rw [skipWs_append_ws _ _ hws]
          have hshape : serStr k ++ (':' :: ' ' ::
              (serVal lvl v ++ (serObjRest lvl kvs ++ (tl ++ ('\x7d' :: rest)))))
              = '"' :: (escChars k.data ++ ('"' :: (':' :: ' ' ::
                  (serVal lvl v ++ (serObjRest lvl kvs ++ (tl ++ ('\x7d' :: rest))))))) := by
            simp [serStr, List.append_assoc]
          rw [hshape]
          rfl
        have hv : parseVal f (' ' :: (serVal lvl v ++
            (serObjRest lvl kvs ++ (tl ++ ('\x7d' :: rest)))))
            = some (v, serObjRest lvl kvs ++ (tl ++ ('\x7d' :: rest))) := by
          have := ihV v lvl [' '] _
            (by intro c hc; simp at hc; rw [hc]; rfl)
            (numBoundary_serObjRest lvl kvs tl rest htl)
            (hwf (k, v) (by simp))
            (by simp only [jsizeM] at hsz; omega)
          simpa using this
        rw [pm_step f _ _ _ _ _ k v acc hskip
          (parseStringBody_serStr k (':' :: ' ' ::
            (serVal lvl v ++ (serObjRest lvl kvs ++ (tl ++ ('\x7d' :: rest)))))) rfl hv]
        cases kvs with
        | nil =>
          have hsk : skipWs (serObjRest lvl ([] : List (String × Json))
              ++ (tl ++ ('\x7d' :: rest))) = '\x7d' :: rest := by
            show skipWs ([] ++ (tl ++ ('\x7d' :: rest))) = _
            rw [List.nil_append, skipWs_append_ws _ _ htl]
            rfl
          rw [hsk]
          simp [pyInsert_not_mem acc k v hknotin]
        | cons p kvs2 =>
          obtain ⟨k2, v2⟩ := p
          have hsk : skipWs (serObjRest lvl ((k2, v2) :: kvs2) ++ (tl ++ ('\x7d' :: rest)))
              = ',' :: (nlIndent lvl ++ (serStr k2 ++ (':' :: ' ' ::
                  (serVal lvl v2 ++ (serObjRest lvl kvs2 ++ (tl ++ ('\x7d' :: rest))))))) := by
            have hshape : serObjRest lvl ((k2, v2) :: kvs2) ++ (tl ++ ('\x7d' :: rest))
                = ',' :: (nlIndent lvl ++ (serStr k2 ++ (':' :: ' ' ::
                    (serVal lvl v2 ++ (serObjRest lvl kvs2 ++ (tl ++ ('\x7d' :: rest))))))) := by
              simp [serObjRest, List.append_assoc]
            rw [hshape]
            rfl
          rw [hsk]
          rw [show pyInsert acc k v = acc ++ [(k, v)] from pyInsert_not_mem acc k v hknotin]
          have := ihM k2 v2 kvs2 lvl (nlIndent lvl) tl rest (acc ++ [(k, v)])
            (allWsL_nlIndent _) htl (fun p hp => hwf p (by simp at hp ⊢; tauto))
            (by rw [List.append_assoc]; simpa using hnd)
            (by simp only [jsizeM] at hsz ⊢; omega)
          simpa [List.append_assoc] using this

/-! ### Round-trip infrastructure: fuel bound and parser invariant -/

theorem jsize_le_ser (n : Nat) :
    (∀ (v : Json) (lvl : Nat), jsize v ≤ n → jsize v ≤ (serVal lvl v).length) ∧
    (∀ (xs : List Json) (lvl : Nat), jsizeL xs ≤ n → jsizeL xs ≤ (serArrRest lvl xs).length) ∧
    (∀ (kvs : List (String × Json)) (lvl : Nat), jsizeM kvs ≤ n →
      jsizeM kvs ≤ (serObjRest lvl kvs).length) := by
  induction n using Nat.strong_induction_on with
  | _ n ih =>
    refine ⟨?_, ?_, ?_⟩
    · intro v lvl hsz
      cases v with
      | null => simp [jsize, serVal]
      | bool b => cases b <;> simp [jsize, serVal]
      | num i =>
        obtain ⟨c, cs, hic, -⟩ := intChars_spec i
        simp [jsize, serVal, hic]
      | str s => simp [jsize, serVal, serStr]
      | arr xs =>
        cases xs with
        | nil => simp [jsize, jsizeL, serVal]
        | cons x xs2 =>
          have hb : 1 + (1 + jsize x + jsizeL xs2) ≤ n := by
            simpa [jsize, jsizeL] using hsz
          have hx := (ih (jsize x) (by omega)).1 x (lvl + 1) (le_refl _)
          have hxs := (ih (jsizeL xs2) (by have := jsize_pos x; omega)).2.1 xs2 (lvl + 1)
            (le_refl _)
          simp only [jsize, jsizeL, serVal, List.length_cons, List.length_append,
            nlIndent, List.length_replicate]
          omega
      | obj kvs =>
        cases kvs with
        | nil => simp [jsize, jsizeM, serVal]
        | cons p kvs2 =>
          obtain ⟨k, v2⟩ := p
          have hb : 1 + (1 + jsize v2 + jsizeM kvs2) ≤ n := by
            simpa [jsize, jsizeM] using hsz
          have hx := (ih (jsize v2) (by omega)).1 v2 (lvl + 1) (le_refl _)
          have hxs := (ih (jsizeM kvs2) (by have := jsize_pos v2; omega)).2.2 kvs2 (lvl + 1)
            (le_refl _)
          simp only [jsize, jsizeM, serVal, List.length_cons, List.length_append,
            nlIndent, List.length_replicate]
          omega
    · intro xs lvl hsz
      cases xs with
      | nil => simp [jsizeL, serArrRest]
      | cons x xs2 =>
        have hb : 1 + jsize x + jsizeL xs2 ≤ n := by
          simpa [jsizeL] using hsz
        have hx := (ih (jsize x) (by omega)).1 x lvl (le_refl _)
        have hxs := (ih (jsizeL xs2) (by have := jsize_pos x; omega)).2.1 xs2 lvl (le_refl _)
        simp only [jsizeL, serArrRest, List.length_cons, List.length_append,
          nlIndent, List.length_replicate]
        omega
    · intro kvs lvl hsz
      cases kvs with
      | nil => simp [jsizeM, serObjRest]
      | cons p kvs2 =>
        obtain ⟨k, v2⟩ := p
        have hb : 1 + jsize v2 + jsizeM kvs2 ≤ n := by
          simpa [jsizeM] using hsz
        have hx := (ih (jsize v2) (by omega)).1 v2 lvl (le_refl _)
        have hxs := (ih (jsizeM kvs2) (by have := jsize_pos v2; omega)).2.2 kvs2 lvl (le_refl _)
        simp only [jsizeM, serObjRest, List.length_cons, List.length_append,
          nlIndent, List.length_replicate]
        omega

theorem parseNumber_shape (l : List Char) (v : Json) (r : List Char)
    (h : parseNumber l = some (v, r)) : ∃ i, v = Json.num i := by
  cases l with
  | nil => simp [parseNumber] at h
  | cons c rest =>
    simp only [parseNumber] at h
    split_ifs at h
    · split at h
      · simp at h
        exact ⟨_, h.1.symm⟩
      · simp at h
    · split at h
      · simp at h
        exact ⟨_, h.1.symm⟩
      · simp at h

theorem parse_WF (fuel : Nat) :
    (∀ s v rest, parseVal fuel s = some (v, rest) → WF v) ∧
    (∀ s acc v rest, (∀ e ∈ acc, WF e) →
      parseElems fuel s acc = some (v, rest) → WF v) ∧
    (∀ s acc v rest, (acc.map Prod.fst).Nodup → (∀ p ∈ acc, WF p.2) →
      parseMembers fuel s acc = some (v, rest) → WF v) := by
  induction fuel using Nat.strong_induction_on with
  | _ fuel ih =>
    cases fuel with
    | zero =>
      refine ⟨?_, ?_, ?_⟩ <;> intro s
      · intro v rest h; simp [parseVal] at h
      · intro acc v rest _ h; simp [parseElems] at h
      · intro acc v rest _ _ h; simp [parseMembers] at h
    | succ f =>
      obtain ⟨ihV, ihE, ihM⟩ := ih f (by omega)
      refine ⟨?_, ?_, ?_⟩
      · intro s v rest h
        simp only [parseVal] at h
        split at h
        · simp at h
        · split_ifs at h with h1 h2 h3 h4 h5 h6 h7
          · -- string literal
            split at h
            · next s2 r2 heq =>
              simp only [Option.some.injEq, Prod.mk.injEq] at h
              rw [← h.1]
              exact WF.str s2
            · simp at h
          · -- object
            split at h
            · simp at h
            · split_ifs at h with hb
              · simp only [Option.some.injEq, Prod.mk.injEq] at h
                rw [← h.1]
                exact WF.obj [] (by simp) (by simp)
              · exact ihM _ [] v rest (by simp) (by simp) h
          · -- array
            split at h
            · simp at h
            · split_ifs at h with hb
              · simp only [Option.some.injEq, Prod.mk.injEq] at h
                rw [← h.1]
                exact WF.arr [] (by simp)
              · exact ihE _ [] v rest (by simp) h
          · -- true
            split at h
            · simp only [Option.some.injEq, Prod.mk.injEq] at h
              rw [← h.1]
              exact WF.bool true
            · simp at h
          · -- false
            split at h
            · simp only [Option.some.injEq, Prod.mk.injEq] at h
              rw [← h.1]
              exact WF.bool false
            · simp at h
          · -- null
            split at h
            · simp only [Option.some.injEq, Prod.mk.injEq] at h
              rw [← h.1]
              exact WF.null
            · simp at h
          · -- number
            obtain ⟨i, rfl⟩ := parseNumber_shape _ v rest h
            exact WF.num i
      · intro s acc v rest hacc h
        simp only [parseElems] at h
        split at h
        · simp at h
        · next v0 r0 heq =>
          have hv0 : WF v0 := ihV s v0 r0 heq
          split at h
          · simp at h
          · split_ifs at h with hc1 hc2
            · refine ihE _ (v0 :: acc) v rest ?_ h
              intro e he
              rcases List.mem_cons.mp he with he2 | he2
              · rw [he2]; exact hv0
              · exact hacc e he2
            · simp only [Option.some.injEq, Prod.mk.injEq] at h
              rw [← h.1]
              refine WF.arr _ ?_
              intro e he
              rw [List.mem_reverse] at he
              rcases List.mem_cons.mp he with he2 | he2
              · rw [he2]; exact hv0
              · exact hacc e he2
      · intro s acc v rest hnd hacc h
        simp only [parseMembers] at h
        split at h
        · simp at h
        · split_ifs at h with h1
          · split at h
            · simp at h
            · next k r2 heqk =>
              split at h
              · simp at h
              · split_ifs at h with h2
                · split at h
                  · simp at h
                  · next v0 r4 heqv =>
                    have hv0 : WF v0 := ihV _ v0 r4 heqv
                    split at h
                    · simp at h
                    · split_ifs at h with h3 h4
                      · exact ihM _ (pyInsert acc k v0) v rest
                          (nodup_pyInsert acc k v0 hnd)
                          (wf_vals_pyInsert acc k v0 hacc hv0) h
                      · simp only [Option.some.injEq, Prod.mk.injEq] at h
                        rw [← h.1]
                        exact WF.obj _ (nodup_pyInsert acc k v0 hnd)
                          (wf_vals_pyInsert acc k v0 hacc hv0)

/-- `json.loads` only produces well-formed documents. -/
theorem json_loads_WF (s : String) (v : Json) (h : json_loads s = Except.ok v) :
    WF v := by
  unfold json_loads at h
  split at h
  · next v0 rest0 heq =>
    split at h
    · simp only [Except.ok.injEq] at h
      rw [← h]
      exact (parse_WF (s.length + 1)).1 s.data v0 rest0 heq
    · exact absurd h (by simp)
  · exact absurd h (by simp)

/-- Serializing a well-formed document and parsing it back restores it. -/
theorem json_loads_dumps (v : Json) (h : WF v) :
    json_loads (json_dumps v) = Except.ok v := by
  have hfuel : jsize v ≤ (serVal 0 v).length + 1 := by
    have := (jsize_le_ser (jsize v)).1 v 0 (le_refl _)
    omega
  have hpv := (parse_serVal ((serVal 0 v).length + 1)).1 v 0 [] []
    (by intro c hc; simp at hc) trivial h hfuel
  rw [List.nil_append, List.append_nil] at hpv
  show (match parseVal ((String.mk (serVal 0 v)).length + 1)
      (String.mk (serVal 0 v)).data with
    | some (v2, rest) =>
      (match skipWs rest with
       | [] => Except.ok v2
       | _ => Except.error ParseError.parseError)
    | none => Except.error ParseError.parseError) = Except.ok v
  have hdata : (String.mk (serVal 0 v)).data = serVal 0 v := rfl
  have hlen : (String.mk (serVal 0 v)).length = (serVal 0 v).length := rfl
  rw [hdata, hlen, hpv]
  rfl

/-- C4: for every well-formed JSON input text, parse-serialize-parse
equals parse — the serializer (`json.dumps(..., indent=2,
ensure_ascii=False)`) emits text that `json.loads` reads back to a tree
structurally equal to the first parse, with array order and object key
insertion order preserved. -/
theorem serialize_parse_round_trip (text : String) (v : Json)
    (h : json_loads text = Except.ok v) :
    json_loads (json_dumps v) = Except.ok v :=
  json_loads_dumps v (json_loads_WF text v h)

/-- C4 witness: a concrete document with an object, an array, a string
with an escape, numbers and null. -/
theorem serialize_parse_round_trip_w :
    json_loads "\x7b\"a\": -5, \"b\": [true, null, \"x\\n\"]\x7d"
      = Except.ok (Json.obj [("a", Json.num (-5)),
          ("b", Json.arr [Json.bool true, Json.null, Json.str "x\n"])]) ∧
    json_loads (json_dumps (Json.obj [("a", Json.num (-5)),
        ("b", Json.arr [Json.bool true, Json.null, Json.str "x\n"])]))
      = Except.ok (Json.obj [("a", Json.num (-5)),
          ("b", Json.arr [Json.bool true, Json.null, Json.str "x\n"])]) :=
  ⟨rfl, serialize_parse_round_trip "\x7b\"a\": -5, \"b\": [true, null, \"x\\n\"]\x7d" _ rfl⟩

/-! ### Claims C5, C6, C9 -/

/-- C9: a structured-list edit whose text fails to parse as JSON is
silently dropped — the document's prior value stays intact and no error
is surfaced — while a successfully parsed edit is applied through the
Field-Path Resolver `update_field` (whose own `PathError`, were it to
occur, also mutates nothing). -/
theorem update_list_policy :
    (∀ (d : Json) (p t : String),
      json_loads t = Except.error ParseError.parseError → update_list d p t = d) ∧
    (∀ (d d2 : Json) (p t : String) (v : Json),
      json_loads t = Except.ok v → update_field d p v = Except.ok d2 →
      update_list d p t = d2) ∧
    (∀ (d : Json) (p t : String) (v : Json),
      json_loads t = Except.ok v →
      update_field d p v = Except.error PathError.pathError →
      update_list d p t = d) := by
  refine ⟨?_, ?_, ?_⟩
  · intro d p t h
    simp [update_list, h]
  · intro d d2 p t v h1 h2
    simp [update_list, h1, h2]
  · intro d p t v h1 h2
    simp [update_list, h1, h2]

/-- C9 witness: on the document `{"xs": [1]}`, the unparsable edit `[1,`
is dropped and the parsable edit `[1, 2]` is applied. -/
theorem update_list_policy_w :
    json_loads "[1," = Except.error ParseError.parseError ∧
    update_list (Json.obj [("xs", Json.arr [Json.num 1])]) "xs" "[1,"
      = Json.obj [("xs", Json.arr [Json.num 1])] ∧
    json_loads "[1, 2]" = Except.ok (Json.arr [Json.num 1, Json.num 2]) ∧
    update_field (Json.obj [("xs", Json.arr [Json.num 1])]) "xs"
      (Json.arr [Json.num 1, Json.num 2])
      = Except.ok (Json.obj [("xs", Json.arr [Json.num 1, Json.num 2])]) ∧
    update_list (Json.obj [("xs", Json.arr [Json.num 1])]) "xs" "[1, 2]"
      = Json.obj [("xs", Json.arr [Json.num 1, Json.num 2])] :=
  ⟨rfl, update_list_policy.1 _ "xs" "[1," rfl, rfl, rfl,
   update_list_policy.2.1 _ _ "xs" "[1, 2]" _ rfl rfl⟩

/-- C5 counterexample: a save triggered while the raw-text view holds
invalid JSON (`"[1,"`) but the Properties tab is active does not fail
with `ParseError`: the raw text is never parsed, the save succeeds, and
the file on disk is overwritten with the serialized in-memory document. -/
theorem save_inactive_raw_cx :
    json_loads "[1," = Except.error ParseError.parseError ∧
    (save_file ⟨some "f.json", some (Json.obj [("a", Json.num 1)]), true,
        "[1,", false, some "old"⟩).2 = SaveOutcome.saved ∧
    (save_file ⟨some "f.json", some (Json.obj [("a", Json.num 1)]), true,
        "[1,", false, some "old"⟩).1.disk = some "\x7b\n  \"a\": 1\n\x7d" ∧
    some "\x7b\n  \"a\": 1\n\x7d" ≠ some "old" :=
  ⟨rfl, rfl, rfl, by decide⟩

/-- C5 (amended): only a save triggered while the Raw JSON tab is the
active widget parses the raw text; such a save with unparsable text
fails with `ParseError` before the target file is opened, leaving the
whole state — the file on disk included — unchanged.  (With another tab
active, the raw text is ignored and `json_data` is written out.) -/
theorem save_active_raw_parse_failure (st : EditorState) (f : String)
    (hf : st.current_file = some f) (ht : st.raw_tab_active = true)
    (hp : json_loads st.raw_text = Except.error ParseError.parseError) :
    save_file st = (st, SaveOutcome.failed) := by
  simp [save_file, hf, ht, hp, Except.map]

/-- C5 witness: the amended statement at a concrete state with the raw
tab active and raw text `[1,`. -/
theorem save_active_raw_parse_failure_w :
    (⟨some "f.json", some Json.null, true, "[1,", true, some "old"⟩ :
        EditorState).current_file = some "f.json" ∧
    (⟨some "f.json", some Json.null, true, "[1,", true, some "old"⟩ :
        EditorState).raw_tab_active = true ∧
    save_file ⟨some "f.json", some Json.null, true, "[1,", true, some "old"⟩
      = (⟨some "f.json", some Json.null, true, "[1,", true, some "old"⟩,
         SaveOutcome.failed) :=
  ⟨rfl, rfl,
   save_active_raw_parse_failure
     ⟨some "f.json", some Json.null, true, "[1,", true, some "old"⟩
     "f.json" rfl rfl rfl⟩

/-- C6: a failed load — an I/O error (`content = none`) or malformed
JSON — leaves every field of the editor state, the in-memory document
included, exactly as it was, and reports the failure. -/
theorem load_failure_preserves_state (st : EditorState) (p : String)
    (content : Option String)
    (h : ∀ t, content = some t → json_loads t = Except.error ParseError.parseError) :
    load_file st p content = (st, false) := by
  cases content with
  | none => rfl
  | some t =>
    have h2 := h t rfl
    simp [load_file, h2]

/-- C6 witness: both failure modes at a concrete state: unparsable file
content, and an I/O error. -/
theorem load_failure_preserves_state_w :
    json_loads "not json" = Except.error ParseError.parseError ∧
    load_file ⟨none, none, false, "", false, none⟩ "f.json" (some "not json")
      = (⟨none, none, false, "", false, none⟩, false) ∧
    load_file ⟨none, none, false, "", false, none⟩ "f.json" none
      = (⟨none, none, false, "", false, none⟩, false) :=
  ⟨rfl,
   load_failure_preserves_state _ "f.json" _ (fun t ht => by cases ht; rfl),
   load_failure_preserves_state _ "f.json" none (fun t ht => by cases ht)⟩

end MobileUiEditor
